import Mathlib

/-!
Verification of the in-memory knowledge-graph store (`src/app/graph_builder.py`)
and the recommendation engine (`src/app/recommendations.py`) of study-sniffle.

The embedding mirrors the Python classes directly:

* Python dicts are insertion-ordered association lists (`Dict`); assignment
  updates an existing key in place and appends a fresh key, exactly like
  CPython dicts.
* `KnowledgeGraph` keeps the networkx `DiGraph` content (node-attribute dict
  `gnodeAttrs`, edge list `gedges` with the `relationship`/`weight` attributes
  the code stores) alongside the redundant `nodes_data` / `edges_data`
  bookkeeping that the Python class maintains.
* Property-bag values (Python `Any`) are modelled as opaque strings; no
  operation of the store ever computes with a property value, it only copies
  them, so this loses nothing.
* Edge weights are Python floats used only as stored constants (never added or
  compared by the store), so they are modelled as rationals.
* Calls into the networkx library (`shortest_path`, `degree`,
  `betweenness_centrality`) are modelled by their documented mathematics:
  `shortest_path` returns a minimum-hop directed path or raises
  `NodeNotFound`; iteration order of Python `set` objects is unspecified, and
  the model fixes insertion order for it, so only order-insensitive facts are
  claimed about code that iterates over a `set`.
-/

/-- A Python dict with string keys: insertion-ordered association list. -/
abbrev Dict (α : Type) := List (String × α)

/-- Python dict assignment `d[k] = v`: update in place if the key is present,
otherwise append at the end (CPython insertion-order semantics). -/
def dset {α : Type} (d : Dict α) (k : String) (v : α) : Dict α :=
  match d with
  | [] => [(k, v)]
  | (k', v') :: rest => if k' = k then (k, v) :: rest else (k', v') :: dset rest k v

/-- Python `d.get(k)`. -/
def dget? {α : Type} (d : Dict α) (k : String) : Option α :=
  match d with
  | [] => none
  | (k', v') :: rest => if k' = k then some v' else dget? rest k

/-- Python `d.update(u)`: fold assignments of `u` into `d`. -/
def dupdate {α : Type} (d u : Dict α) : Dict α :=
  u.foldl (fun acc kv => dset acc kv.1 kv.2) d

/-- Python `d.pop(k, None)` / `del d[k]` (ignoring the returned value). -/
def ddel {α : Type} (d : Dict α) (k : String) : Dict α :=
  d.filter (fun kv => kv.1 ≠ k)

/-- The keys of a dict, in insertion order. -/
def dkeys {α : Type} (d : Dict α) : List String := d.map (·.1)

/-- Value stored in `KnowledgeGraph.nodes_data` (source: `add_node`,
`self.nodes_data[node_id] = {'id': .., 'type': .., 'properties': ..}`). -/
structure NodeData where
  id : String
  type : String
  properties : Dict String
deriving DecidableEq

/-- One edge record, with the `relationship` and `weight` attributes the code
stores both on the networkx edge and in `edges_data`. -/
structure EdgeRec where
  source : String
  target : String
  relationship : String
  weight : ℚ
deriving DecidableEq

/-- The state of `KnowledgeGraph` (`src/app/graph_builder.py`).
`gnodeAttrs`/`gedges` are the contents of `self.graph` (a networkx `DiGraph`);
`nodes_data`/`edges_data` are the two redundant bookkeeping fields. -/
structure KnowledgeGraph where
  gnodeAttrs : Dict (Dict String)
  gedges : List EdgeRec
  nodes_data : Dict NodeData
  edges_data : List EdgeRec
deriving DecidableEq

/-- `KnowledgeGraph.__init__`: empty directed graph, empty bookkeeping. -/
def KnowledgeGraph.empty : KnowledgeGraph := ⟨[], [], [], []⟩

/-- The node ids of the graph, in insertion order (`self.graph.nodes()`). -/
def nodeIds (g : KnowledgeGraph) : List String := dkeys g.gnodeAttrs

/-- Python `node_id in self.graph`. -/
abbrev memGraph (g : KnowledgeGraph) (i : String) : Prop := i ∈ nodeIds g

/-- The mutation performed by `add_node` when the call succeeds:
`self.graph.add_node(node_id, node_type=node_type, **properties)` merges the
keyword dict `{node_type: .., **properties}` into the node's attribute dict
(networkx updates attributes of an existing node in place), and
`self.nodes_data[node_id]` is overwritten wholesale.  The full call
semantics, including the `TypeError` CPython raises before any mutation when
`properties` itself carries the key "node_type" (a duplicated keyword
argument), is `add_node_checked` below. -/
def add_node (g : KnowledgeGraph) (node_id node_type : String)
    (properties : Dict String) : KnowledgeGraph :=
  let kwargs : Dict String := dupdate [("node_type", node_type)] properties
  let attrs : Dict String :=
    match dget? g.gnodeAttrs node_id with
    | some old => dupdate old kwargs
    | none => kwargs
  { g with
    gnodeAttrs := dset g.gnodeAttrs node_id attrs
    nodes_data := dset g.nodes_data node_id ⟨node_id, node_type, properties⟩ }

/-- The `TypeError` message CPython raises for the duplicated keyword. -/
def addNodeTypeErrMsg : String :=
  "TypeError: add_node() got multiple values for keyword argument 'node_type'"

/-- The full call semantics of `add_node`: when the property bag contains the
key "node_type", the call `self.graph.add_node(node_id, node_type=..,
**properties)` raises `TypeError` before mutating anything; otherwise it
performs the upsert. -/
def add_node_checked (g : KnowledgeGraph) (node_id node_type : String)
    (properties : Dict String) : Except String KnowledgeGraph :=
  if "node_type" ∈ dkeys properties then .error addNodeTypeErrMsg
  else .ok (add_node g node_id node_type properties)

/-- The ordered (source, target) pairs currently carrying an edge. -/
def edgePairs (g : KnowledgeGraph) : List (String × String) :=
  g.gedges.map (fun e => (e.source, e.target))

/-- Python `self.graph.has_edge(source, target)`. -/
abbrev hasEdge (g : KnowledgeGraph) (s t : String) : Prop := (s, t) ∈ edgePairs g

/-- The in-place relationship/weight update `add_edge` performs on the first
matching entry of an edge list (the Python loop returns after the first hit). -/
def updateEdgeList (l : List EdgeRec) (s t rel : String) (w : ℚ) : List EdgeRec :=
  match l with
  | [] => []
  | e :: rest =>
    if e.source = s ∧ e.target = t then { e with relationship := rel, weight := w } :: rest
    else e :: updateEdgeList rest s t rel w

/-- The `ValueError` message raised by `add_edge`. -/
def addEdgeErrMsg (s t : String) : String :=
  "Both nodes must exist: " ++ s ++ " -> " ++ t

/-- `add_edge(source, target, relationship='related_to', weight=1.0)`:
raises `ValueError` when an endpoint is absent; updates relationship/weight in
place when the ordered pair already has an edge; otherwise appends a new edge
to both the graph and `edges_data`. -/
def add_edge (g : KnowledgeGraph) (s t rel : String) (w : ℚ) :
    Except String KnowledgeGraph :=
  if ¬ memGraph g s ∨ ¬ memGraph g t then .error (addEdgeErrMsg s t)
  else if hasEdge g s t then
    .ok { g with
          gedges := updateEdgeList g.gedges s t rel w
          edges_data := updateEdgeList g.edges_data s t rel w }
  else
    .ok { g with
          gedges := g.gedges ++ [⟨s, t, rel, w⟩]
          edges_data := g.edges_data ++ [⟨s, t, rel, w⟩] }

/-- `remove_node`: if present, networkx removes the node and every incident
edge (both directions); `nodes_data.pop(node_id, None)`; `edges_data` is
re-filtered. If absent, nothing happens. -/
def remove_node (g : KnowledgeGraph) (node_id : String) : KnowledgeGraph :=
  if memGraph g node_id then
    { gnodeAttrs := ddel g.gnodeAttrs node_id
      gedges := g.gedges.filter (fun e => e.source ≠ node_id ∧ e.target ≠ node_id)
      nodes_data := ddel g.nodes_data node_id
      edges_data := g.edges_data.filter (fun e => e.source ≠ node_id ∧ e.target ≠ node_id) }
  else g

/-- `get_node_count`: `self.graph.number_of_nodes()`. -/
def get_node_count (g : KnowledgeGraph) : ℕ := g.gnodeAttrs.length

/-- `get_edge_count`: `self.graph.number_of_edges()`. -/
def get_edge_count (g : KnowledgeGraph) : ℕ := g.gedges.length

/-- networkx `self.graph.degree(u)`: in-degree plus out-degree
(a self-loop contributes to both). -/
def degree (g : KnowledgeGraph) (u : String) : ℕ :=
  (g.gedges.filter (fun e => e.source = u)).length
    + (g.gedges.filter (fun e => e.target = u)).length

/-- Stable insertion step for descending sort by `key`: `x` passes over every
element whose key is `≥ key x`, so equal keys keep their earlier-first order. -/
def insertDesc {α β : Type} [LinearOrder β] (key : α → β) (x : α) :
    List α → List α
  | [] => [x]
  | y :: ys => if key y < key x then x :: y :: ys else y :: insertDesc key x ys

/-- Python `sorted(l, key=key, reverse=True)`: the stable descending sort
(characterised uniquely by its sortedness and stability, so any stable sorting
algorithm, including CPython's, computes it). -/
def sortDesc {α β : Type} [LinearOrder β] (key : α → β) (l : List α) : List α :=
  l.foldl (fun acc x => insertDesc key x acc) []

/-- `get_most_connected_nodes(n)`: degrees in node-insertion order, stable sort
by degree descending, first `n`. -/
def get_most_connected_nodes (g : KnowledgeGraph) (n : ℕ) : List (String × ℕ) :=
  let degrees := (nodeIds g).map (fun u => (u, degree g u))
  (sortDesc (fun p => p.2) degrees).take n


deriving instance DecidableEq for Except

/-- The public mutators of the store, as invoked by callers. -/
inductive Op where
  | addNode (id ty : String) (props : Dict String)
  | addEdge (s t rel : String) (w : ℚ)
  | removeNode (id : String)
deriving DecidableEq

/-- Effect of one mutator call on the store.  A failing `add_edge` or
`add_node` raises, leaving the store untouched, so the error cases keep the
state. -/
def applyOp (g : KnowledgeGraph) : Op → KnowledgeGraph
  | .addNode i ty p =>
    match add_node_checked g i ty p with
    | .ok g' => g'
    | .error _ => g
  | .addEdge s t r w =>
    match add_edge g s t r w with
    | .ok g' => g'
    | .error _ => g
  | .removeNode i => remove_node g i

/-- The store state after a sequence of public mutator calls on a fresh store. -/
def run (ops : List Op) : KnowledgeGraph := ops.foldl applyOp KnowledgeGraph.empty

/-- The spec constraint on mutator arguments (§4.1: `AddNode` requires a
non-empty id); `AddEdge`/`RemoveNode` are unconstrained. -/
def opValid : Op → Prop
  | .addNode i _ _ => i ≠ ""
  | .addEdge _ _ _ _ => True
  | .removeNode _ => True

instance : (op : Op) → Decidable (opValid op)
  | .addNode i _ _ => (inferInstance : Decidable (i ≠ ""))
  | .addEdge _ _ _ _ => (inferInstance : Decidable True)
  | .removeNode _ => (inferInstance : Decidable True)

/-- Out-neighbours of `u` reached by one directed edge, in edge order. -/
def succs (g : KnowledgeGraph) (u : String) : List String :=
  (g.gedges.filter (fun e => e.source = u)).map (·.target)

/-- One directed edge from `u` to `v` exists. -/
abbrev adj (g : KnowledgeGraph) (u v : String) : Prop :=
  ∃ e ∈ g.gedges, e.source = u ∧ e.target = v

/-- All directed walks from `s` with exactly `k` edges, each stored reversed
(current endpoint first, `s` last). -/
def layers (g : KnowledgeGraph) (s : String) : ℕ → List (List String)
  | 0 => [[s]]
  | k + 1 =>
    ((layers g s k).map (fun w =>
      match w with
      | [] => []
      | u :: _ => (succs g u).map (fun v => v :: u :: w.tail))).flatten

/-- First walk with exactly `k` edges from `s` ending at `t`, forward order. -/
def findAt (g : KnowledgeGraph) (s t : String) (k : ℕ) : Option (List String) :=
  ((layers g s k).find? (fun w => w.head? = some t)).map List.reverse

/-- First walk from `s` to `t` with at most `k` edges, trying lengths in
increasing order (which is what breadth-first search returns). -/
def searchUpTo (g : KnowledgeGraph) (s t : String) : ℕ → Option (List String)
  | 0 => findAt g s t 0
  | k + 1 =>
    match searchUpTo g s t k with
    | some p => some p
    | none => findAt g s t (k + 1)

/-- The `NodeNotFound` message networkx raises for a missing endpoint. -/
def nodeNotFoundMsg (s t : String) : String :=
  "Either source " ++ s ++ " or target " ++ t ++ " is not in G"

/-- `find_path`: `nx.shortest_path(self.graph, source, target)` — an
unweighted minimum-hop directed path.  networkx raises `NodeNotFound` when an
endpoint is missing (not caught by the `except nx.NetworkXNoPath` handler, so
it propagates); the handler turns an existing-but-unreachable target into
`None`.  A walk with more edges than the graph has nodes cannot be shortest,
so `number_of_nodes` bounds the search. -/
def find_path (g : KnowledgeGraph) (s t : String) :
    Except String (Option (List String)) :=
  if memGraph g s ∧ memGraph g t then .ok (searchUpTo g s t (get_node_count g))
  else .error (nodeNotFoundMsg s t)

/-- A serialized node object: each field models the presence or absence of the
corresponding dict key. -/
structure NodeDict where
  id : Option String
  node_id : Option String
  type : Option String
  node_type : Option String
  properties : Option (Dict String)
deriving DecidableEq

/-- A serialized edge object. -/
structure EdgeDict where
  source : Option String
  target : Option String
  relationship : Option String
  weight : Option ℚ
deriving DecidableEq

/-- The snapshot dictionary `{'nodes': [...], 'edges': [...]}`. -/
structure GraphDict where
  nodes : List NodeDict
  edges : List EdgeDict
deriving DecidableEq

/-- `to_dict`: `{'nodes': list(self.nodes_data.values()), 'edges': self.edges_data}`. -/
def to_dict (g : KnowledgeGraph) : GraphDict :=
  { nodes := g.nodes_data.map (fun kv =>
      ⟨some kv.2.id, none, some kv.2.type, none, some kv.2.properties⟩)
    edges := g.edges_data.map (fun e =>
      ⟨some e.source, some e.target, some e.relationship, some e.weight⟩) }

/-- Python `a or b` on two optional strings (`None` and `""` are falsy). -/
def pyOr (a b : Option String) : Option String :=
  match a with
  | some s => if s = "" then b else some s
  | none => b

/-- One iteration of the node-loading loop of `load_from_dict`:
`node_id = node_data.get('id') or node_data.get('node_id')`; skipped unless
truthy; type falls back from `type` to legacy `node_type` to `"concept"`;
properties default to `{}`. -/
def loadNodeStep (g : KnowledgeGraph) (nd : NodeDict) : KnowledgeGraph :=
  match pyOr nd.id nd.node_id with
  | some i =>
    if i = "" then g
    else add_node g i (nd.type.getD (nd.node_type.getD "concept")) (nd.properties.getD [])
  | none => g

/-- One iteration of the edge-loading loop of `load_from_dict`: the edge is
used only when source and target are truthy and both are already loaded
nodes; `relationship` defaults to `"related_to"`, `weight` to `1.0`; a
`ValueError` from `add_edge` is swallowed (`continue`). -/
def loadEdgeStep (g : KnowledgeGraph) (ed : EdgeDict) : KnowledgeGraph :=
  match ed.source, ed.target with
  | some s, some t =>
    if s ≠ "" ∧ t ≠ "" ∧ memGraph g s ∧ memGraph g t then
      match add_edge g s t (ed.relationship.getD "related_to") (ed.weight.getD 1) with
      | .ok g' => g'
      | .error _ => g
    else g
  | _, _ => g

/-- `sync_edges_data`: rebuild `edges_data` by iterating `self.graph.edges()`.
networkx yields the edges grouped by source node in node-insertion order
(and, per source, in target-insertion order, which is the relative order of
the flat `gedges` list), not in global insertion order.  Every graph edge of
the model carries both attributes, so the `.get` defaults in the source are
never taken. -/
def sync_edges_data (g : KnowledgeGraph) : KnowledgeGraph :=
  { g with edges_data :=
      ((nodeIds g).map (fun u => g.gedges.filter (fun e => e.source = u))).flatten }

/-- `load_from_dict`: clear all state, load every node, then every edge, then
resynchronize `edges_data`.  The receiver's previous state is erased by the
three `clear()` calls before anything is read from `data`. -/
def load_from_dict (_g : KnowledgeGraph) (d : GraphDict) : KnowledgeGraph :=
  let cleared : KnowledgeGraph := ⟨[], [], [], []⟩
  let afterNodes := d.nodes.foldl loadNodeStep cleared
  let afterEdges := d.edges.foldl loadEdgeStep afterNodes
  sync_edges_data afterEdges

/-- One recommendation entry `{'node', 'reason', 'score', 'type'}` (scores are
Python ints/floats; modelled as rationals). -/
structure Recommendation where
  node : String
  reason : String
  score : ℚ
  type : String
deriving DecidableEq

/-- The sources of the inbound edges of `v` labelled "prerequisite", in edge
order. -/
def prereqSources (g : KnowledgeGraph) (v : String) : List String :=
  ((g.gedges.filter (fun e => e.target = v)).filter
    (fun e => e.relationship = "prerequisite")).map (·.source)

/-- `_recommend_by_prerequisites`: iterate over `set(self.graph.nodes())`
(model: insertion order with duplicates removed), emit a recommendation for
every node with a nonempty prerequisite-source list all of whose sources are
graph nodes, and truncate to `limit`. -/
def recommend_by_prerequisites (g : KnowledgeGraph) (limit : ℕ) :
    List Recommendation :=
  let all_nodes := (nodeIds g).dedup
  (all_nodes.filterMap (fun v =>
    let prerequisites := prereqSources g v
    if prerequisites ≠ [] ∧ ∀ p ∈ prerequisites, p ∈ all_nodes then
      some ⟨v, "Prerequisites met: " ++ String.intercalate ", " prerequisites,
            (prerequisites.length : ℚ) * 10, "prerequisite"⟩
    else none)).take limit

/-- `_recommend_by_connectivity`: nodes by degree descending (stable), first
`2*limit`, keep positive degrees, score `5*degree`, truncate to `limit`. -/
def recommend_by_connectivity (g : KnowledgeGraph) (limit : ℕ) :
    List Recommendation :=
  let degrees := (nodeIds g).map (fun u => (u, degree g u))
  let sorted_nodes := sortDesc (fun p => p.2) degrees
  ((sorted_nodes.take (limit * 2)).filterMap (fun p =>
    if 0 < p.2 then
      some ⟨p.1, "Highly connected (" ++ toString p.2 ++ " connections)",
            (p.2 : ℚ) * 5, "connectivity"⟩
    else none)).take limit

/-- Minimum number of edges of a directed walk from `s` to `t`, searched up to
the number of nodes (`none` when no walk that short exists). -/
def minDist (g : KnowledgeGraph) (s t : String) : Option ℕ :=
  (List.range (get_node_count g + 1)).find?
    (fun k => (layers g s k).any (fun w => w.head? = some t))

/-- Number of minimum-hop directed paths from `s` to `t` (0 when unreachable):
the shortest walks of the layer enumeration. -/
def sigmaCount (g : KnowledgeGraph) (s t : String) : ℕ :=
  match minDist g s t with
  | none => 0
  | some k => ((layers g s k).filter (fun w => w.head? = some t)).length

/-- Number of minimum-hop directed paths from `s` to `t` passing through `v`. -/
def sigmaThrough (g : KnowledgeGraph) (s t v : String) : ℕ :=
  match minDist g s t with
  | none => 0
  | some k => ((layers g s k).filter
      (fun w => w.head? = some t ∧ v ∈ w)).length

/-- `nx.betweenness_centrality` (used by `_recommend_by_bridging`), by its
mathematical definition: for every ordered pair `(s,t)` of distinct nodes
other than `v`, the fraction of minimum-hop `s → t` paths through `v`,
summed, and normalized by `1/((n-1)(n-2))` for directed graphs with more
than two nodes (networkx applies no scaling when `n ≤ 2`).  Computed in exact
rational arithmetic; a fraction is zero or positive exactly as in the
library's floating-point computation. -/
def betweenness (g : KnowledgeGraph) (v : String) : ℚ :=
  let ns := (nodeIds g).dedup
  let n := ns.length
  let pairList := (ns.map (fun s => ns.map (fun t => (s, t)))).flatten
  let raw : ℚ := pairList.foldl (fun acc p =>
    if p.1 ≠ p.2 ∧ p.1 ≠ v ∧ p.2 ≠ v ∧ sigmaCount g p.1 p.2 ≠ 0 then
      acc + (sigmaThrough g p.1 p.2 v : ℚ) / (sigmaCount g p.1 p.2 : ℚ)
    else acc) 0
  if 2 < n then raw * (1 / ((n - 1 : ℚ) * (n - 2 : ℚ))) else raw

/-- `_recommend_by_bridging`: nodes by betweenness centrality descending
(stable), first `limit`, keep strictly positive centralities, score
`100 * centrality`, truncate to `limit`. -/
def recommend_by_bridging (g : KnowledgeGraph) (limit : ℕ) :
    List Recommendation :=
  let centralities := (nodeIds g).map (fun u => (u, betweenness g u))
  let sorted_nodes := sortDesc (fun p => p.2) centralities
  ((sorted_nodes.take limit).filterMap (fun p =>
    if 0 < p.2 then
      some ⟨p.1, "Bridges different knowledge areas", p.2 * 100, "bridging"⟩
    else none)).take limit

/-- The deduplication loop of `get_recommendations`: keep one entry per node
id, replacing only on strictly larger score. -/
def dedupRecs (recs : List Recommendation) : Dict Recommendation :=
  recs.foldl (fun d r =>
    match dget? d r.node with
    | none => dset d r.node r
    | some old => if old.score < r.score then dset d r.node r else d) []

/-- `get_recommendations(limit=5)`: concatenate the three strategies,
deduplicate by node id keeping the highest score, sort by score descending
(stable), truncate to `limit`. -/
def get_recommendations (g : KnowledgeGraph) (limit : ℕ) : List Recommendation :=
  let recommendations :=
    recommend_by_prerequisites g limit ++ recommend_by_connectivity g limit
      ++ recommend_by_bridging g limit
  (sortDesc (fun r => r.score) ((dedupRecs recommendations).map (·.2))).take limit

/-- The {Python, Flask, GraphTheory} example graph of the spec, built through
the public mutators. -/
def exampleOps : List Op :=
  [.addNode "Python" "concept" [], .addNode "Flask" "concept" [],
   .addNode "GraphTheory" "concept" [],
   .addEdge "Python" "Flask" "prerequisite" 1,
   .addEdge "Python" "GraphTheory" "related_to" 1]

def exampleGraph : KnowledgeGraph := run exampleOps

/-- The A→B→C chain example of the spec. -/
def chainOps : List Op :=
  [.addNode "A" "concept" [], .addNode "B" "concept" [],
   .addNode "C" "concept" [],
   .addEdge "A" "B" "related_to" 1, .addEdge "B" "C" "related_to" 1]

def chainGraph : KnowledgeGraph := run chainOps


lemma dkeys_nil {α : Type} : dkeys ([] : Dict α) = [] := rfl

lemma dkeys_cons {α : Type} (k : String) (v : α) (d : Dict α) :
    dkeys ((k, v) :: d) = k :: dkeys d := rfl

lemma dget?_dset_self {α : Type} (d : Dict α) (k : String) (v : α) :
    dget? (dset d k v) k = some v := by
  induction d with
  | nil => simp [dset, dget?]
  | cons kv rest ih =>
    obtain ⟨k', v'⟩ := kv
    by_cases h : k' = k
    · simp [dset, dget?, h]
    · simp [dset, dget?, h, ih]

lemma dget?_dset_ne {α : Type} (d : Dict α) (k k' : String) (v : α)
    (h : k' ≠ k) : dget? (dset d k v) k' = dget? d k' := by
  have hne : k ≠ k' := fun hh => h hh.symm
  induction d with
  | nil => simp [dset, dget?, hne]
  | cons kv rest ih =>
    obtain ⟨k₀, v₀⟩ := kv
    by_cases h0 : k₀ = k
    · subst h0
      simp [dset, dget?, hne]
    · simp [dset, dget?, h0, ih]

lemma dkeys_dset_mem {α : Type} {d : Dict α} {k : String} (v : α)
    (h : k ∈ dkeys d) : dkeys (dset d k v) = dkeys d := by
  induction d with
  | nil => simp [dkeys_nil] at h
  | cons kv rest ih =>
    obtain ⟨k₀, v₀⟩ := kv
    by_cases h0 : k₀ = k
    · simp [dset, h0, dkeys_cons]
    · rw [dkeys_cons] at h
      rcases List.mem_cons.mp h with h1 | h1
      · exact absurd h1.symm h0
      · simp only [dset, if_neg h0, dkeys_cons, ih h1]

lemma mem_dkeys {α : Type} {d : Dict α} {k : String} :
    k ∈ dkeys d ↔ ∃ v, (k, v) ∈ d := by
  constructor
  · intro h
    rcases List.mem_map.mp h with ⟨⟨k₀, v₀⟩, hm, hk⟩
    cases hk
    exact ⟨v₀, hm⟩
  · rintro ⟨v, hv⟩
    exact List.mem_map.mpr ⟨(k, v), hv, rfl⟩

lemma dset_not_mem {α : Type} {d : Dict α} {k : String} (v : α)
    (h : k ∉ dkeys d) : dset d k v = d ++ [(k, v)] := by
  induction d with
  | nil => simp [dset]
  | cons kv rest ih =>
    obtain ⟨k₀, v₀⟩ := kv
    rw [dkeys_cons] at h
    have h1 : ¬ (k = k₀ ∨ k ∈ dkeys rest) := fun hh => h (List.mem_cons.mpr hh)
    push_neg at h1
    have h2 : ¬ k₀ = k := fun hh => h1.1 hh.symm
    simp [dset, h2, ih h1.2]

lemma dkeys_dset_not_mem {α : Type} {d : Dict α} {k : String} (v : α)
    (h : k ∉ dkeys d) : dkeys (dset d k v) = dkeys d ++ [k] := by
  rw [dset_not_mem v h]
  simp [dkeys]

lemma length_dset_mem {α : Type} {d : Dict α} {k : String} (v : α)
    (h : k ∈ dkeys d) : (dset d k v).length = d.length := by
  have h1 : (dkeys (dset d k v)).length = (dkeys d).length := by
    rw [dkeys_dset_mem v h]
  simpa [dkeys] using h1

lemma mem_dkeys_dset {α : Type} (d : Dict α) (k k' : String) (v : α) :
    k' ∈ dkeys (dset d k v) ↔ k' = k ∨ k' ∈ dkeys d := by
  by_cases h : k ∈ dkeys d
  · rw [dkeys_dset_mem v h]
    constructor
    · exact fun hm => Or.inr hm
    · rintro (rfl | hm)
      · exact h
      · exact hm
  · rw [dkeys_dset_not_mem v h]
    simp [or_comm]

lemma mem_dset {α : Type} {d : Dict α} {k : String} {v : α} {kv : String × α}
    (h : kv ∈ dset d k v) : kv = (k, v) ∨ kv ∈ d := by
  induction d with
  | nil =>
    simp [dset] at h
    exact Or.inl h
  | cons kv₀ rest ih =>
    obtain ⟨k₀, v₀⟩ := kv₀
    by_cases h0 : k₀ = k
    · subst h0
      simp only [dset, if_pos rfl] at h
      rcases List.mem_cons.mp h with rfl | h
      · exact Or.inl rfl
      · exact Or.inr (List.mem_cons_of_mem _ h)
    · simp only [dset, if_neg h0] at h
      rcases List.mem_cons.mp h with rfl | h
      · exact Or.inr (List.mem_cons_self _ _)
      · rcases ih h with h1 | h1
        · exact Or.inl h1
        · exact Or.inr (List.mem_cons_of_mem _ h1)

lemma dget?_isSome {α : Type} {d : Dict α} {k : String} :
    k ∈ dkeys d ↔ ∃ v, dget? d k = some v := by
  induction d with
  | nil => simp [dkeys_nil, dget?]
  | cons kv rest ih =>
    obtain ⟨k₀, v₀⟩ := kv
    rw [dkeys_cons]
    by_cases h0 : k₀ = k
    · subst h0
      simp [dget?, List.mem_cons]
    · have h0' : ¬ k = k₀ := fun hh => h0 hh.symm
      simp only [dget?, if_neg h0, List.mem_cons]
      rw [← ih]
      simp [h0']

lemma dkeys_ddel {α : Type} (d : Dict α) (k : String) :
    dkeys (ddel d k) = (dkeys d).filter (fun x => x ≠ k) := by
  induction d with
  | nil => simp [ddel, dkeys_nil]
  | cons kv rest ih =>
    obtain ⟨k₀, v₀⟩ := kv
    simp only [ddel] at ih ⊢
    by_cases h0 : k₀ = k
    · subst h0
      simp only [List.filter_cons, dkeys_cons, decide_not] at ih ⊢
      simp [ih]
    · simp only [List.filter_cons, dkeys_cons, decide_not] at ih ⊢
      simp [h0]
      rw [dkeys_cons, ih]

lemma mem_ddel {α : Type} {d : Dict α} {k : String} {kv : String × α} :
    kv ∈ ddel d k ↔ kv ∈ d ∧ kv.1 ≠ k := by
  simp [ddel, List.mem_filter]

lemma map_pair_updateEdgeList (l : List EdgeRec) (s t rel : String) (w : ℚ) :
    (updateEdgeList l s t rel w).map (fun e => (e.source, e.target)) =
      l.map (fun e => (e.source, e.target)) := by
  induction l with
  | nil => rfl
  | cons e rest ih =>
    by_cases h : e.source = s ∧ e.target = t
    · simp [updateEdgeList, h, h.1, h.2]
    · simp [updateEdgeList, h, ih]

lemma length_updateEdgeList (l : List EdgeRec) (s t rel : String) (w : ℚ) :
    (updateEdgeList l s t rel w).length = l.length := by
  have := map_pair_updateEdgeList l s t rel w
  have h1 := congrArg List.length this
  simpa using h1

lemma mem_updateEdgeList {l : List EdgeRec} {s t rel : String} {w : ℚ}
    {e' : EdgeRec} (h : e' ∈ updateEdgeList l s t rel w) :
    ∃ e ∈ l, e'.source = e.source ∧ e'.target = e.target := by
  induction l with
  | nil => simp [updateEdgeList] at h
  | cons e rest ih =>
    by_cases h0 : e.source = s ∧ e.target = t
    · simp only [updateEdgeList, if_pos h0] at h
      rcases List.mem_cons.mp h with rfl | h
      · exact ⟨e, List.mem_cons_self _ _, rfl, rfl⟩
      · exact ⟨e', List.mem_cons_of_mem _ h, rfl, rfl⟩
    · simp only [updateEdgeList, if_neg h0] at h
      rcases List.mem_cons.mp h with rfl | h
      · exact ⟨e', List.mem_cons_self _ _, rfl, rfl⟩
      · rcases ih h with ⟨e₀, hm, hp⟩
        exact ⟨e₀, List.mem_cons_of_mem _ hm, hp⟩

/-- Structural invariant of every store state reachable through the public
mutators or `load_from_dict`: node ids unique; `nodes_data` keyed
consistently with the graph; edge endpoints existing nodes; at most one edge
per ordered pair.  (`edges_data` holds the same edges as the graph but its
order differs between mutator-reachable stores, where it is in insertion
order — `run_edges_data_sync` — and freshly loaded stores, where
`sync_edges_data` rebuilt it in grouped iteration order, so no fixed order
is part of the invariant.) -/
structure WF (g : KnowledgeGraph) : Prop where
  nodesNodup : (nodeIds g).Nodup
  ndKeys : dkeys g.nodes_data = nodeIds g
  ndAlign : ∀ kv ∈ g.nodes_data, kv.2.id = kv.1
  edgeSrc : ∀ e ∈ g.gedges, e.source ∈ nodeIds g
  edgeTgt : ∀ e ∈ g.gedges, e.target ∈ nodeIds g
  pairsNodup : (edgePairs g).Nodup

lemma wf_empty : WF KnowledgeGraph.empty := by
  constructor <;> simp [KnowledgeGraph.empty, nodeIds, dkeys_nil, edgePairs]

lemma nodeIds_add_node (g : KnowledgeGraph) (i ty : String) (p : Dict String) :
    nodeIds (add_node g i ty p) =
      if i ∈ nodeIds g then nodeIds g else nodeIds g ++ [i] := by
  by_cases h : i ∈ nodeIds g
  · rw [if_pos h]
    exact dkeys_dset_mem _ h
  · rw [if_neg h]
    exact dkeys_dset_not_mem _ h

lemma gedges_add_node (g : KnowledgeGraph) (i ty : String) (p : Dict String) :
    (add_node g i ty p).gedges = g.gedges := rfl

lemma edges_data_add_node (g : KnowledgeGraph) (i ty : String) (p : Dict String) :
    (add_node g i ty p).edges_data = g.edges_data := rfl

lemma mem_nodeIds_add_node (g : KnowledgeGraph) (i ty : String) (p : Dict String)
    (j : String) : j ∈ nodeIds (add_node g i ty p) ↔ j = i ∨ j ∈ nodeIds g :=
  mem_dkeys_dset _ _ _ _

lemma wf_add_node {g : KnowledgeGraph} (h : WF g) (i ty : String)
    (p : Dict String) : WF (add_node g i ty p) := by
  constructor
  · rw [nodeIds_add_node]
    by_cases hm : i ∈ nodeIds g
    · simpa [hm] using h.nodesNodup
    · simp only [if_neg hm]
      exact List.Nodup.append h.nodesNodup (List.nodup_singleton i)
        (by simpa using hm)
  · show dkeys (dset g.nodes_data i ⟨i, ty, p⟩) = nodeIds (add_node g i ty p)
    rw [nodeIds_add_node]
    by_cases hm : i ∈ nodeIds g
    · rw [if_pos hm, dkeys_dset_mem _ (h.ndKeys.symm ▸ hm)]
      exact h.ndKeys
    · rw [if_neg hm, dkeys_dset_not_mem _ (h.ndKeys.symm ▸ hm), h.ndKeys]
  · intro kv hkv
    rcases mem_dset hkv with rfl | hkv
    · rfl
    · exact h.ndAlign kv hkv
  · intro e he
    rw [gedges_add_node] at he
    rw [mem_nodeIds_add_node]
    exact Or.inr (h.edgeSrc e he)
  · intro e he
    rw [gedges_add_node] at he
    rw [mem_nodeIds_add_node]
    exact Or.inr (h.edgeTgt e he)
  · exact h.pairsNodup

lemma wf_add_edge {g g' : KnowledgeGraph} (h : WF g) {s t rel : String} {w : ℚ}
    (hok : add_edge g s t rel w = .ok g') : WF g' := by
  by_cases hmem : ¬ memGraph g s ∨ ¬ memGraph g t
  · simp [add_edge, hmem] at hok
  · by_cases hedge : hasEdge g s t
    · simp only [add_edge, if_neg hmem, if_pos hedge, Except.ok.injEq] at hok
      subst hok
      constructor
      · exact h.nodesNodup
      · exact h.ndKeys
      · exact h.ndAlign
      · intro e he
        rcases mem_updateEdgeList he with ⟨e₀, hm, hs, _⟩
        rw [hs]
        exact h.edgeSrc e₀ hm
      · intro e he
        rcases mem_updateEdgeList he with ⟨e₀, hm, _, ht⟩
        rw [ht]
        exact h.edgeTgt e₀ hm
      · show ((updateEdgeList g.gedges s t rel w).map
          (fun e => (e.source, e.target))).Nodup
        rw [map_pair_updateEdgeList]
        exact h.pairsNodup
    · simp only [add_edge, if_neg hmem, if_neg hedge, Except.ok.injEq] at hok
      subst hok
      push_neg at hmem
      constructor
      · exact h.nodesNodup
      · exact h.ndKeys
      · exact h.ndAlign
      · intro e he
        rcases List.mem_append.mp he with he | he
        · exact h.edgeSrc e he
        · simp at he
          rw [he]
          exact hmem.1
      · intro e he
        rcases List.mem_append.mp he with he | he
        · exact h.edgeTgt e he
        · simp at he
          rw [he]
          exact hmem.2
      · show ((g.gedges ++ [(⟨s, t, rel, w⟩ : EdgeRec)]).map
          (fun e => (e.source, e.target))).Nodup
        rw [List.map_append]
        refine List.Nodup.append h.pairsNodup (by simp) ?_
        intro p hp hp'
        simp at hp'
        rw [hp'] at hp
        exact hedge hp

lemma wf_remove_node {g : KnowledgeGraph} (h : WF g) (i : String) :
    WF (remove_node g i) := by
  by_cases hm : memGraph g i
  · simp only [remove_node, if_pos hm]
    constructor
    · show (dkeys (ddel g.gnodeAttrs i)).Nodup
      rw [dkeys_ddel]
      exact List.Nodup.filter _ h.nodesNodup
    · show dkeys (ddel g.nodes_data i) = dkeys (ddel g.gnodeAttrs i)
      rw [dkeys_ddel, dkeys_ddel, h.ndKeys]
      rfl
    · intro kv hkv
      exact h.ndAlign kv (mem_ddel.mp hkv).1
    · intro e he
      rw [List.mem_filter] at he
      have h2 := of_decide_eq_true he.2
      show e.source ∈ dkeys (ddel g.gnodeAttrs i)
      rw [dkeys_ddel, List.mem_filter]
      refine ⟨h.edgeSrc e he.1, ?_⟩
      exact decide_eq_true h2.1
    · intro e he
      rw [List.mem_filter] at he
      have h2 := of_decide_eq_true he.2
      show e.target ∈ dkeys (ddel g.gnodeAttrs i)
      rw [dkeys_ddel, List.mem_filter]
      refine ⟨h.edgeTgt e he.1, ?_⟩
      exact decide_eq_true h2.2
    · show ((g.gedges.filter _).map (fun e => (e.source, e.target))).Nodup
      exact List.Nodup.sublist (List.Sublist.map _ (List.filter_sublist _)) h.pairsNodup
  · simpa [remove_node, hm] using h

lemma add_node_checked_ok {g g' : KnowledgeGraph} {i ty : String}
    {p : Dict String} (h : add_node_checked g i ty p = .ok g') :
    g' = add_node g i ty p := by
  by_cases hk : "node_type" ∈ dkeys p
  · simp [add_node_checked, hk] at h
  · simp only [add_node_checked, if_neg hk, Except.ok.injEq] at h
    exact h.symm

lemma wf_applyOp {g : KnowledgeGraph} (h : WF g) (op : Op) : WF (applyOp g op) := by
  cases op with
  | addNode i ty p =>
    show WF (match add_node_checked g i ty p with | .ok g' => g' | .error _ => g)
    cases hcall : add_node_checked g i ty p with
    | ok g' =>
      rw [add_node_checked_ok hcall]
      exact wf_add_node h i ty p
    | error e => exact h
  | addEdge s t rel w =>
    show WF (match add_edge g s t rel w with | .ok g' => g' | .error _ => g)
    cases hcall : add_edge g s t rel w with
    | ok g' => exact wf_add_edge h hcall
    | error e => exact h
  | removeNode i => exact wf_remove_node h i

lemma wf_run (ops : List Op) : WF (run ops) := by
  suffices hgen : ∀ g, WF g → WF (ops.foldl applyOp g) by
    exact hgen KnowledgeGraph.empty wf_empty
  induction ops with
  | nil => exact fun g hg => hg
  | cons op rest ih =>
    intro g hg
    exact ih _ (wf_applyOp hg op)

lemma applyOp_edges_data_sync {g : KnowledgeGraph} (h : g.edges_data = g.gedges)
    (op : Op) : (applyOp g op).edges_data = (applyOp g op).gedges := by
  cases op with
  | addNode i ty p =>
    show (match add_node_checked g i ty p with
      | .ok g' => g' | .error _ => g).edges_data = (match add_node_checked g i ty p with
      | .ok g' => g' | .error _ => g).gedges
    cases hcall : add_node_checked g i ty p with
    | ok g' =>
      rw [add_node_checked_ok hcall]
      exact h
    | error e => exact h
  | addEdge s t rel w =>
    show (match add_edge g s t rel w with
      | .ok g' => g' | .error _ => g).edges_data = (match add_edge g s t rel w with
      | .ok g' => g' | .error _ => g).gedges
    cases hcall : add_edge g s t rel w with
    | ok g' =>
      by_cases hmem : ¬ memGraph g s ∨ ¬ memGraph g t
      · simp [add_edge, hmem] at hcall
      · by_cases hedge : hasEdge g s t
        · simp only [add_edge, if_neg hmem, if_pos hedge, Except.ok.injEq] at hcall
          subst hcall
          show updateEdgeList g.edges_data s t rel w = updateEdgeList g.gedges s t rel w
          rw [h]
        · simp only [add_edge, if_neg hmem, if_neg hedge, Except.ok.injEq] at hcall
          subst hcall
          show g.edges_data ++ _ = g.gedges ++ _
          rw [h]
    | error e => exact h
  | removeNode i =>
    show (remove_node g i).edges_data = (remove_node g i).gedges
    by_cases hm : memGraph g i
    · rw [remove_node, if_pos hm]
      show g.edges_data.filter _ = g.gedges.filter _
      rw [h]
    · rw [remove_node, if_neg hm]
      exact h

/-- Along the public mutators, the two redundant edge stores stay equal as
lists: every mutation appends, rewrites or filters both in lockstep (the
grouped reordering happens only in `sync_edges_data`, i.e. on restore). -/
lemma run_edges_data_sync (ops : List Op) :
    (run ops).edges_data = (run ops).gedges := by
  suffices hgen : ∀ (l : List Op) (g : KnowledgeGraph), g.edges_data = g.gedges →
      (l.foldl applyOp g).edges_data = (l.foldl applyOp g).gedges by
    exact hgen ops KnowledgeGraph.empty rfl
  intro l
  induction l with
  | nil => exact fun g h => h
  | cons op rest ih => exact fun g h => ih _ (applyOp_edges_data_sync h op)

lemma map_pair_filter_ne (l : List EdgeRec) (i : String) :
    (l.filter (fun e => e.source ≠ i ∧ e.target ≠ i)).map (fun e => (e.source, e.target))
      = (l.map (fun e => (e.source, e.target))).filter (fun p => p.1 ≠ i ∧ p.2 ≠ i) := by
  induction l with
  | nil => rfl
  | cons e rest ih =>
    rw [List.filter_cons, List.map_cons, List.filter_cons]
    by_cases h : e.source ≠ i ∧ e.target ≠ i
    · rw [if_pos (decide_eq_true h), if_pos (decide_eq_true h), List.map_cons, ih]
    · rw [if_neg (fun hc => h (of_decide_eq_true hc)),
        if_neg (fun hc => h (of_decide_eq_true hc))]
      exact ih

lemma find?_updateEdgeList {l : List EdgeRec} {s t : String} (rel : String) (w : ℚ)
    (h : (s, t) ∈ l.map (fun e => (e.source, e.target))) :
    (updateEdgeList l s t rel w).find? (fun e => decide (e.source = s ∧ e.target = t))
      = some ⟨s, t, rel, w⟩ := by
  induction l with
  | nil => simp at h
  | cons e rest ih =>
    by_cases h0 : e.source = s ∧ e.target = t
    · simp only [updateEdgeList, if_pos h0]
      rw [List.find?_cons_of_pos _ (by simpa using h0)]
      obtain ⟨h1, h2⟩ := h0
      simp [h1, h2]
    · simp only [updateEdgeList, if_neg h0]
      rw [List.find?_cons_of_neg _ (by simpa using h0)]
      apply ih
      rcases List.mem_map.mp h with ⟨e₀, hm, hp⟩
      rcases List.mem_cons.mp hm with rfl | hm
      · exact absurd ⟨congrArg Prod.fst hp, congrArg Prod.snd hp⟩ h0
      · exact List.mem_map.mpr ⟨e₀, hm, hp⟩

/-- C1: after any sequence of AddNode/AddEdge/RemoveNode calls from the empty
store, every edge's endpoints exist as nodes (no dangling edges); RemoveNode
removes every edge incident to the removed id in either direction, and is a
no-op (not an error) when the id is absent. -/
theorem C1_no_dangling_edges (ops : List Op) (i : String) :
    (∀ e ∈ (run ops).gedges,
        e.source ∈ nodeIds (run ops) ∧ e.target ∈ nodeIds (run ops)) ∧
    (∀ e ∈ (remove_node (run ops) i).gedges, e.source ≠ i ∧ e.target ≠ i) ∧
    (remove_node (run ops) i).gedges =
      (run ops).gedges.filter (fun e => e.source ≠ i ∧ e.target ≠ i) ∧
    (¬ memGraph (run ops) i → remove_node (run ops) i = run ops) := by
  have hwf := wf_run ops
  have hdangle : ∀ e ∈ (run ops).gedges,
      e.source ∈ nodeIds (run ops) ∧ e.target ∈ nodeIds (run ops) :=
    fun e he => ⟨hwf.edgeSrc e he, hwf.edgeTgt e he⟩
  have hfilter : (remove_node (run ops) i).gedges =
      (run ops).gedges.filter (fun e => e.source ≠ i ∧ e.target ≠ i) := by
    by_cases hm : memGraph (run ops) i
    · simp [remove_node, hm]
    · rw [remove_node, if_neg hm]
      symm
      apply List.filter_eq_self.mpr
      intro e he
      apply decide_eq_true
      exact ⟨fun hc => hm (hc ▸ (hdangle e he).1), fun hc => hm (hc ▸ (hdangle e he).2)⟩
  refine ⟨hdangle, ?_, hfilter, fun hm => by rw [remove_node, if_neg hm]⟩
  intro e he
  rw [hfilter] at he
  exact of_decide_eq_true (List.mem_filter.mp he).2

/-- Witness for C1 at a concrete mutation sequence. -/
theorem C1_no_dangling_edges_witness :
    (∀ e ∈ (run [Op.addNode "A" "concept" [], Op.addNode "B" "concept" [],
        Op.addEdge "A" "B" "related_to" 1, Op.addEdge "B" "A" "uses" 2]).gedges,
      e.source ∈ nodeIds (run [Op.addNode "A" "concept" [], Op.addNode "B" "concept" [],
        Op.addEdge "A" "B" "related_to" 1, Op.addEdge "B" "A" "uses" 2]) ∧
      e.target ∈ nodeIds (run [Op.addNode "A" "concept" [], Op.addNode "B" "concept" [],
        Op.addEdge "A" "B" "related_to" 1, Op.addEdge "B" "A" "uses" 2])) ∧
    (remove_node (run [Op.addNode "A" "concept" [], Op.addNode "B" "concept" [],
        Op.addEdge "A" "B" "related_to" 1, Op.addEdge "B" "A" "uses" 2]) "A").gedges = [] := by
  have h := C1_no_dangling_edges
    [Op.addNode "A" "concept" [], Op.addNode "B" "concept" [],
     Op.addEdge "A" "B" "related_to" 1, Op.addEdge "B" "A" "uses" 2] "A"
  refine ⟨h.1, ?_⟩
  rw [h.2.2.1]
  with_unfolding_all decide

/-- Counterexample for C2 as stated: the `ValueError` message does not name
WHICH endpoint(s) are missing.  With only "B" present, AddEdge("A","B")
fails with the source missing; with only "A" present, the same call fails
with the target missing; both raise the identical message
"Both nodes must exist: A -> B", so the message cannot indicate which of the
two named endpoints is absent. -/
theorem C2_add_edge_message_counterexample :
    ¬ memGraph (run [Op.addNode "B" "concept" []]) "A" ∧
    memGraph (run [Op.addNode "B" "concept" []]) "B" ∧
    memGraph (run [Op.addNode "A" "concept" []]) "A" ∧
    ¬ memGraph (run [Op.addNode "A" "concept" []]) "B" ∧
    add_edge (run [Op.addNode "B" "concept" []]) "A" "B" "related_to" 1
      = .error "Both nodes must exist: A -> B" ∧
    add_edge (run [Op.addNode "A" "concept" []]) "A" "B" "related_to" 1
      = .error "Both nodes must exist: A -> B" := by
  refine ⟨?_, ?_, ?_, ?_, ?_, ?_⟩ <;> with_unfolding_all decide

/-- C2 (amended): a failing AddEdge returns the `ValueError` and leaves the
store (in particular `EdgeCount()`) unchanged; its message names both
endpoints — so every missing endpoint's id occurs in it — but, being the
same fixed format in every failure, it does not indicate which of them is
missing (see the counterexample above). -/
theorem C2_add_edge_invalid_reference (g : KnowledgeGraph) (s t rel : String)
    (w : ℚ) (h : ¬ (memGraph g s ∧ memGraph g t)) :
    add_edge g s t rel w = .error (addEdgeErrMsg s t) ∧
    applyOp g (.addEdge s t rel w) = g ∧
    get_edge_count (applyOp g (.addEdge s t rel w)) = get_edge_count g ∧
    (¬ memGraph g s → ∃ a b, addEdgeErrMsg s t = a ++ s ++ b) ∧
    (¬ memGraph g t → ∃ a b, addEdgeErrMsg s t = a ++ t ++ b) := by
  have hor : ¬ memGraph g s ∨ ¬ memGraph g t := by
    by_contra hc
    push_neg at hc
    exact h ⟨hc.1, hc.2⟩
  have herr : add_edge g s t rel w = .error (addEdgeErrMsg s t) := by
    rw [add_edge, if_pos hor]
  have happ : applyOp g (.addEdge s t rel w) = g := by
    show (match add_edge g s t rel w with | .ok g' => g' | .error _ => g) = g
    rw [herr]
  refine ⟨herr, happ, by rw [happ], ?_, ?_⟩
  · intro _
    exact ⟨"Both nodes must exist: ", " -> " ++ t, by
      simp [addEdgeErrMsg, String.append_assoc]⟩
  · intro _
    exact ⟨"Both nodes must exist: " ++ s ++ " -> ", "", by
      simp [addEdgeErrMsg, String.append_assoc]⟩

/-- Witness for C2: adding an edge between two absent ids on the one-node
store fails and keeps `EdgeCount()` at 0. -/
theorem C2_add_edge_invalid_reference_witness :
    (¬ (memGraph (run [Op.addNode "A" "concept" []]) "X" ∧
        memGraph (run [Op.addNode "A" "concept" []]) "Y")) ∧
    add_edge (run [Op.addNode "A" "concept" []]) "X" "Y" "related_to" 1
      = .error (addEdgeErrMsg "X" "Y") ∧
    get_edge_count (applyOp (run [Op.addNode "A" "concept" []])
      (.addEdge "X" "Y" "related_to" 1)) = get_edge_count (run [Op.addNode "A" "concept" []]) := by
  have hh : ¬ (memGraph (run [Op.addNode "A" "concept" []]) "X" ∧
      memGraph (run [Op.addNode "A" "concept" []]) "Y") := by
    with_unfolding_all decide
  have h := C2_add_edge_invalid_reference (run [Op.addNode "A" "concept" []])
    "X" "Y" "related_to" 1 hh
  exact ⟨hh, h.1, h.2.2.1⟩

/-- Counterexample for C5 as stated: with a property bag containing the key
"node_type", re-adding an existing id raises (the CPython `TypeError` for
the duplicated keyword argument in `self.graph.add_node(node_id,
node_type=.., **properties)`) instead of upserting without error. -/
theorem C5_add_node_upsert_counterexample :
    "A" ∈ nodeIds (run [Op.addNode "A" "concept" []]) ∧
    add_node_checked (run [Op.addNode "A" "concept" []]) "A" "concept"
      [("node_type", "x")] = .error addNodeTypeErrMsg := by
  constructor
  · with_unfolding_all decide
  · with_unfolding_all decide

/-- C5 (amended): provided the property bag does not contain the key
"node_type" — otherwise the call raises `TypeError` before mutating
anything (see the counterexample above) — AddNode on an existing id is an
upsert: no error, the stored `{'id','type','properties'}` record becomes the
latest call's values, and a second identical call changes neither
`NodeCount()` nor the stored property bag. -/
theorem C5_add_node_upsert (g : KnowledgeGraph) (i ty : String) (p : Dict String)
    (hp : "node_type" ∉ dkeys p) :
    add_node_checked g i ty p = .ok (add_node g i ty p) ∧
    (i ∈ nodeIds g → get_node_count (add_node g i ty p) = get_node_count g) ∧
    dget? (add_node g i ty p).nodes_data i = some ⟨i, ty, p⟩ ∧
    get_node_count (add_node (add_node g i ty p) i ty p)
      = get_node_count (add_node g i ty p) ∧
    dget? (add_node (add_node g i ty p) i ty p).nodes_data i = some ⟨i, ty, p⟩ := by
  refine ⟨by rw [add_node_checked, if_neg hp], fun h => length_dset_mem _ h,
    dget?_dset_self _ _ _, ?_, dget?_dset_self _ _ _⟩
  apply length_dset_mem
  show i ∈ nodeIds (add_node g i ty p)
  rw [mem_nodeIds_add_node]
  exact Or.inl rfl

/-- Witness for C5 on a concrete store. -/
theorem C5_add_node_upsert_witness :
    ("node_type" ∉ dkeys ([("level", "2")] : Dict String)) ∧
    ("A" ∈ nodeIds (run [Op.addNode "A" "concept" []])) ∧
    add_node_checked (run [Op.addNode "A" "concept" []]) "A" "skill" [("level", "2")]
      = .ok (add_node (run [Op.addNode "A" "concept" []]) "A" "skill"
          [("level", "2")]) ∧
    get_node_count (add_node (run [Op.addNode "A" "concept" []]) "A" "skill"
      [("level", "2")]) = get_node_count (run [Op.addNode "A" "concept" []]) ∧
    dget? (add_node (run [Op.addNode "A" "concept" []]) "A" "skill"
      [("level", "2")]).nodes_data "A" = some ⟨"A", "skill", [("level", "2")]⟩ := by
  have hp : "node_type" ∉ dkeys ([("level", "2")] : Dict String) := by decide
  have hm : "A" ∈ nodeIds (run [Op.addNode "A" "concept" []]) := by
    with_unfolding_all decide
  have h := C5_add_node_upsert (run [Op.addNode "A" "concept" []]) "A" "skill"
    [("level", "2")] hp
  exact ⟨hp, hm, h.1, h.2.1 hm, h.2.2.1⟩

/-- C10: re-adding an existing node id changes nothing observable except that
node's own stored type/properties: the graph's edges, `edges_data`, both
counts, the node-id list, every other node's `nodes_data` record and every
other node's graph attributes are untouched. -/
theorem C10_add_node_frame (g : KnowledgeGraph) (i ty : String) (p : Dict String)
    (h : i ∈ nodeIds g) :
    (add_node g i ty p).gedges = g.gedges ∧
    (add_node g i ty p).edges_data = g.edges_data ∧
    get_node_count (add_node g i ty p) = get_node_count g ∧
    get_edge_count (add_node g i ty p) = get_edge_count g ∧
    nodeIds (add_node g i ty p) = nodeIds g ∧
    (∀ j, j ≠ i → dget? (add_node g i ty p).nodes_data j = dget? g.nodes_data j) ∧
    (∀ j, j ≠ i → dget? (add_node g i ty p).gnodeAttrs j = dget? g.gnodeAttrs j) := by
  refine ⟨rfl, rfl, length_dset_mem _ h, rfl, dkeys_dset_mem _ h, ?_, ?_⟩
  · intro j hj
    exact dget?_dset_ne _ _ _ _ hj
  · intro j hj
    exact dget?_dset_ne _ _ _ _ hj

/-- Witness for C10: upserting "A" leaves the other node and the edge alone. -/
theorem C10_add_node_frame_witness :
    ("A" ∈ nodeIds (run [Op.addNode "A" "concept" [], Op.addNode "B" "concept" [],
        Op.addEdge "A" "B" "uses" 1])) ∧
    (add_node (run [Op.addNode "A" "concept" [], Op.addNode "B" "concept" [],
        Op.addEdge "A" "B" "uses" 1]) "A" "skill" [("x", "1")]).gedges =
      (run [Op.addNode "A" "concept" [], Op.addNode "B" "concept" [],
        Op.addEdge "A" "B" "uses" 1]).gedges ∧
    dget? (add_node (run [Op.addNode "A" "concept" [], Op.addNode "B" "concept" [],
        Op.addEdge "A" "B" "uses" 1]) "A" "skill" [("x", "1")]).nodes_data "B" =
      dget? (run [Op.addNode "A" "concept" [], Op.addNode "B" "concept" [],
        Op.addEdge "A" "B" "uses" 1]).nodes_data "B" := by
  have hm : "A" ∈ nodeIds (run [Op.addNode "A" "concept" [], Op.addNode "B" "concept" [],
      Op.addEdge "A" "B" "uses" 1]) := by
    with_unfolding_all decide
  have h := C10_add_node_frame (run [Op.addNode "A" "concept" [],
    Op.addNode "B" "concept" [], Op.addEdge "A" "B" "uses" 1]) "A" "skill" [("x", "1")] hm
  exact ⟨hm, h.1, h.2.2.2.2.2.1 "B" (by decide)⟩

/-- C6: at most one edge per ordered (source, target) pair. In any reachable
store the pair list is duplicate-free and `EdgeCount()` counts exactly those
pairs; re-adding an existing pair succeeds, rewrites relationship/weight in
place and changes neither the pair list nor the count; adding a fresh pair
appends exactly that pair; and cascading node removal removes exactly the
incident pairs. -/
theorem C6_edge_count_distinct_pairs (ops : List Op) (s t rel : String) (w : ℚ)
    (i : String) :
    (edgePairs (run ops)).Nodup ∧
    get_edge_count (run ops) = (edgePairs (run ops)).length ∧
    (hasEdge (run ops) s t →
      ∃ g', add_edge (run ops) s t rel w = .ok g' ∧
        get_edge_count g' = get_edge_count (run ops) ∧
        edgePairs g' = edgePairs (run ops) ∧
        g'.gedges.find? (fun e => decide (e.source = s ∧ e.target = t))
          = some ⟨s, t, rel, w⟩) ∧
    (memGraph (run ops) s → memGraph (run ops) t → ¬ hasEdge (run ops) s t →
      edgePairs (applyOp (run ops) (.addEdge s t rel w))
        = edgePairs (run ops) ++ [(s, t)]) ∧
    edgePairs (remove_node (run ops) i) =
      (edgePairs (run ops)).filter (fun q => q.1 ≠ i ∧ q.2 ≠ i) := by
  have hwf := wf_run ops
  refine ⟨hwf.pairsNodup, by simp [edgePairs, get_edge_count], ?_, ?_, ?_⟩
  · intro hedge
    have hs : memGraph (run ops) s := by
      rcases List.mem_map.mp hedge with ⟨e, hm, hp⟩
      simp only [Prod.mk.injEq] at hp
      have := hwf.edgeSrc e hm
      rwa [hp.1] at this
    have ht : memGraph (run ops) t := by
      rcases List.mem_map.mp hedge with ⟨e, hm, hp⟩
      simp only [Prod.mk.injEq] at hp
      have := hwf.edgeTgt e hm
      rwa [hp.2] at this
    have hcond : ¬ (¬ memGraph (run ops) s ∨ ¬ memGraph (run ops) t) := by
      rintro (hc | hc)
      · exact hc hs
      · exact hc ht
    refine ⟨_, by rw [add_edge, if_neg hcond, if_pos hedge], ?_, ?_, ?_⟩
    · exact length_updateEdgeList _ _ _ _ _
    · exact map_pair_updateEdgeList _ _ _ _ _
    · exact find?_updateEdgeList rel w hedge
  · intro hs ht hedge
    have hcond : ¬ (¬ memGraph (run ops) s ∨ ¬ memGraph (run ops) t) := by
      rintro (hc | hc)
      · exact hc hs
      · exact hc ht
    show edgePairs (match add_edge (run ops) s t rel w with
      | .ok g' => g' | .error _ => run ops) = _
    rw [add_edge, if_neg hcond, if_neg hedge]
    simp [edgePairs]
  · by_cases hm : memGraph (run ops) i
    · rw [remove_node, if_pos hm]
      exact map_pair_filter_ne _ _
    · rw [remove_node, if_neg hm]
      symm
      apply List.filter_eq_self.mpr
      intro q hq
      rcases List.mem_map.mp hq with ⟨e, hme, hp⟩
      apply decide_eq_true
      constructor
      · intro hc
        apply hm
        rw [← hc, ← congrArg Prod.fst hp]
        exact hwf.edgeSrc e hme
      · intro hc
        apply hm
        rw [← hc, ← congrArg Prod.snd hp]
        exact hwf.edgeTgt e hme

/-- Witness for C6: upserting the pair (A, B) with a new relationship/weight
keeps one edge and rewrites it in place. -/
theorem C6_edge_count_distinct_pairs_witness :
    hasEdge (run [Op.addNode "A" "concept" [], Op.addNode "B" "concept" [],
      Op.addEdge "A" "B" "related_to" 1]) "A" "B" ∧
    (∃ g', add_edge (run [Op.addNode "A" "concept" [], Op.addNode "B" "concept" [],
        Op.addEdge "A" "B" "related_to" 1]) "A" "B" "prerequisite" 3 = .ok g' ∧
      get_edge_count g' = get_edge_count (run [Op.addNode "A" "concept" [],
        Op.addNode "B" "concept" [], Op.addEdge "A" "B" "related_to" 1]) ∧
      edgePairs g' = edgePairs (run [Op.addNode "A" "concept" [],
        Op.addNode "B" "concept" [], Op.addEdge "A" "B" "related_to" 1]) ∧
      g'.gedges.find? (fun e => decide (e.source = "A" ∧ e.target = "B"))
        = some ⟨"A", "B", "prerequisite", 3⟩) := by
  have hedge : hasEdge (run [Op.addNode "A" "concept" [], Op.addNode "B" "concept" [],
      Op.addEdge "A" "B" "related_to" 1]) "A" "B" := by
    with_unfolding_all decide
  have h := C6_edge_count_distinct_pairs
    [Op.addNode "A" "concept" [], Op.addNode "B" "concept" [],
     Op.addEdge "A" "B" "related_to" 1] "A" "B" "prerequisite" 3 "A"
  exact ⟨hedge, h.2.2.1 hedge⟩

lemma mem_insertDesc {α β : Type} [LinearOrder β] {key : α → β} {x z : α}
    {l : List α} : z ∈ insertDesc key x l ↔ z = x ∨ z ∈ l := by
  induction l with
  | nil => simp [insertDesc]
  | cons y ys ih =>
    by_cases h : key y < key x
    · simp [insertDesc, h]
    · simp only [insertDesc, if_neg h, List.mem_cons, ih]
      tauto

lemma insertDesc_perm {α β : Type} [LinearOrder β] (key : α → β) (x : α)
    (l : List α) : (insertDesc key x l).Perm (x :: l) := by
  induction l with
  | nil => simp [insertDesc]
  | cons y ys ih =>
    by_cases h : key y < key x
    · simp [insertDesc, h]
    · rw [insertDesc, if_neg h]
      exact (List.Perm.cons y ih).trans (List.Perm.swap x y ys)

lemma sortDesc_perm {α β : Type} [LinearOrder β] (key : α → β) (l : List α) :
    (sortDesc key l).Perm l := by
  suffices hgen : ∀ acc : List α,
      (l.foldl (fun acc x => insertDesc key x acc) acc).Perm (acc ++ l) by
    simpa using hgen []
  induction l with
  | nil => simp
  | cons x xs ih =>
    intro acc
    exact ((ih _).trans ((insertDesc_perm key x acc).append_right xs)).trans
      List.perm_middle.symm

lemma insertDesc_pairwise {α β : Type} [LinearOrder β] {key : α → β}
    {S : α → α → Prop} (hmono : ∀ a b, S a b → key b ≤ key a)
    (h1 : ∀ a b, key b < key a → S a b) (x : α) (l : List α)
    (hpl : l.Pairwise S) (h2 : ∀ y ∈ l, key x ≤ key y → S y x) :
    (insertDesc key x l).Pairwise S := by
  induction l with
  | nil => simp [insertDesc]
  | cons y ys ih =>
    rw [List.pairwise_cons] at hpl
    by_cases h : key y < key x
    · rw [insertDesc, if_pos h]
      rw [List.pairwise_cons]
      constructor
      · intro z hz
        rcases List.mem_cons.mp hz with rfl | hz
        · exact h1 x z h
        · exact h1 x z (lt_of_le_of_lt (hmono y z (hpl.1 z hz)) h)
      · rw [List.pairwise_cons]
        exact hpl
    · rw [insertDesc, if_neg h]
      rw [List.pairwise_cons]
      constructor
      · intro z hz
        rcases mem_insertDesc.mp hz with rfl | hz
        · exact h2 y (List.mem_cons_self _ _) (le_of_not_lt h)
        · exact hpl.1 z hz
      · exact ih hpl.2 (fun y' hy' => h2 y' (List.mem_cons_of_mem _ hy'))

lemma sortDesc_pairwise {α β : Type} [LinearOrder β] (key : α → β)
    (S : α → α → Prop) (hmono : ∀ a b, S a b → key b ≤ key a)
    (h1 : ∀ a b, key b < key a → S a b) (l : List α)
    (hl : l.Pairwise (fun a b => key a = key b → S a b)) :
    (sortDesc key l).Pairwise S := by
  suffices hgen : ∀ acc : List α, acc.Pairwise S →
      (∀ x ∈ l, ∀ y ∈ acc, key x ≤ key y → S y x) →
      (l.foldl (fun acc x => insertDesc key x acc) acc).Pairwise S by
    exact hgen [] (by simp) (by simp)
  induction l with
  | nil => exact fun acc hacc _ => hacc
  | cons x xs ih =>
    intro acc hacc hcross
    rw [List.pairwise_cons] at hl
    apply ih hl.2
    · exact insertDesc_pairwise hmono h1 x acc hacc
        (fun y hy => hcross x (List.mem_cons_self _ _) y hy)
    · intro x' hx' y hy hkey
      rcases mem_insertDesc.mp hy with rfl | hy
      · rcases lt_or_eq_of_le hkey with hlt | heq
        · exact h1 y x' hlt
        · exact hl.1 x' hx' heq.symm
      · exact hcross x' (List.mem_cons_of_mem _ hx') y hy hkey

lemma nodup_pairwise_indexOf {l : List String} (h : l.Nodup) :
    l.Pairwise (fun u v => l.indexOf u < l.indexOf v) := by
  induction l with
  | nil => simp
  | cons x xs ih =>
    rw [List.nodup_cons] at h
    rw [List.pairwise_cons]
    constructor
    · intro v hv
      have hvx : v ≠ x := fun hc => h.1 (hc ▸ hv)
      rw [List.indexOf_cons_self, List.indexOf_cons_ne _ (fun hc => hvx hc.symm)]
      exact Nat.succ_pos _
    · have hxs := ih h.2
      apply List.Pairwise.imp_of_mem ?_ hxs
      intro u v hu hv huv
      have hux : u ≠ x := fun hc => h.1 (hc ▸ hu)
      have hvx : v ≠ x := fun hc => h.1 (hc ▸ hv)
      rw [List.indexOf_cons_ne _ (fun hc => hux hc.symm),
        List.indexOf_cons_ne _ (fun hc => hvx hc.symm)]
      exact Nat.succ_lt_succ huv

/-- C9: `get_most_connected_nodes(n)` returns at most `n` (id, degree) pairs,
each an existing node with its in-plus-out degree, ordered by degree
descending with ties broken by node insertion order (stable sort).  It is a
pure function of the store state, hence deterministic.  On the example graph,
`TopConnectedNodes(1)` is Python with degree 2. -/
theorem C9_top_connected_nodes (ops : List Op) (n : ℕ) :
    (get_most_connected_nodes (run ops) n).length ≤ n ∧
    (∀ p ∈ get_most_connected_nodes (run ops) n,
        p.1 ∈ nodeIds (run ops) ∧ p.2 = degree (run ops) p.1) ∧
    (get_most_connected_nodes (run ops) n).Pairwise (fun a b =>
        b.2 < a.2 ∨ (a.2 = b.2 ∧
          (nodeIds (run ops)).indexOf a.1 < (nodeIds (run ops)).indexOf b.1)) ∧
    get_most_connected_nodes exampleGraph 1 = [("Python", 2)] := by
  have hwf := wf_run ops
  refine ⟨List.length_take_le _ _, ?_, ?_, by decide⟩
  · intro p hp
    have hp1 : p ∈ sortDesc (fun q : String × ℕ => q.2)
        ((nodeIds (run ops)).map (fun u => (u, degree (run ops) u))) :=
      List.mem_of_mem_take hp
    have hp2 := (sortDesc_perm _ _).mem_iff.mp hp1
    rcases List.mem_map.mp hp2 with ⟨u, hu, hpu⟩
    rw [← hpu]
    exact ⟨hu, rfl⟩
  · apply List.Pairwise.sublist (List.take_sublist _ _)
    apply sortDesc_pairwise
    · intro a b hab
      rcases hab with h | h
      · exact le_of_lt h
      · exact le_of_eq h.1.symm
    · intro a b h
      exact Or.inl h
    · rw [List.pairwise_map]
      apply List.Pairwise.imp ?_ (nodup_pairwise_indexOf hwf.nodesNodup)
      intro u v huv heq
      exact Or.inr ⟨heq, huv⟩

/-- Witness for C9 at a concrete store and bound. -/
theorem C9_top_connected_nodes_witness :
    (get_most_connected_nodes (run exampleOps) 2).length ≤ 2 ∧
    (∀ p ∈ get_most_connected_nodes (run exampleOps) 2,
        p.1 ∈ nodeIds (run exampleOps) ∧ p.2 = degree (run exampleOps) p.1) ∧
    get_most_connected_nodes exampleGraph 1 = [("Python", 2)] := by
  have h := C9_top_connected_nodes exampleOps 2
  exact ⟨h.1, h.2.1, h.2.2.2⟩

lemma mem_succs {g : KnowledgeGraph} {u v : String} :
    v ∈ succs g u ↔ adj g u v := by
  simp only [succs, List.mem_map, List.mem_filter, adj]
  constructor
  · rintro ⟨e, ⟨he, hsrc⟩, rfl⟩
    exact ⟨e, he, of_decide_eq_true hsrc, rfl⟩
  · rintro ⟨e, he, hsrc, htgt⟩
    exact ⟨e, ⟨he, decide_eq_true hsrc⟩, htgt⟩

lemma mem_layers {g : KnowledgeGraph} {s : String} :
    ∀ {k : ℕ} {w : List String}, w ∈ layers g s k ↔
      w.length = k + 1 ∧ w.getLast? = some s ∧
        w.Chain' (fun a b => adj g b a) := by
  intro k
  induction k with
  | zero =>
    intro w
    constructor
    · intro hw
      rcases List.mem_singleton.mp hw with rfl
      simp [layers]
    · rintro ⟨hlen, hlast, _⟩
      rcases List.length_eq_one.mp hlen with ⟨x, rfl⟩
      simp only [List.getLast?_singleton, Option.some.injEq] at hlast
      simp [layers, hlast]
  | succ k ih =>
    intro w
    constructor
    · intro hw
      simp only [layers, List.mem_flatten, List.mem_map] at hw
      obtain ⟨block, ⟨w', hw', rfl⟩, hmem⟩ := hw
      have hw'c := ih.mp hw'
      match w', hw' , hw'c with
      | u :: rest, hw', hw'c =>
        simp only [List.mem_map] at hmem
        obtain ⟨v, hv, rfl⟩ := hmem
        refine ⟨by simpa using hw'c.1, ?_, ?_⟩
        · rw [List.getLast?_cons_cons]
          exact hw'c.2.1
        · rw [List.chain'_cons]
          exact ⟨mem_succs.mp hv, hw'c.2.2⟩
    · rintro ⟨hlen, hlast, hchain⟩
      match w with
      | v :: u :: rest =>
        rw [List.chain'_cons] at hchain
        rw [List.getLast?_cons_cons] at hlast
        have hlayer : (u :: rest) ∈ layers g s k :=
          ih.mpr ⟨by simpa using hlen, hlast, hchain.2⟩
        simp only [layers, List.mem_flatten, List.mem_map]
        refine ⟨(succs g u).map (fun v => v :: u :: rest), ⟨u :: rest, hlayer, rfl⟩, ?_⟩
        simp only [List.mem_map]
        exact ⟨v, mem_succs.mpr hchain.1, rfl⟩

lemma findAt_some {g : KnowledgeGraph} {s t : String} {k : ℕ} {p : List String}
    (h : findAt g s t k = some p) :
    p.length = k + 1 ∧ p.head? = some s ∧ p.getLast? = some t ∧
      p.Chain' (adj g) := by
  simp only [findAt, Option.map_eq_some'] at h
  obtain ⟨w, hfind, rfl⟩ := h
  have hw := List.mem_of_find?_eq_some hfind
  have hpred := List.find?_some hfind
  have hhead : w.head? = some t := of_decide_eq_true hpred
  have hc := mem_layers.mp hw
  refine ⟨by simpa using hc.1, ?_, ?_, ?_⟩
  · rw [List.head?_reverse]
    exact hc.2.1
  · rw [List.getLast?_reverse]
    exact hhead
  · rw [List.chain'_reverse]
    exact hc.2.2

lemma findAt_none {g : KnowledgeGraph} {s t : String} {k : ℕ}
    (h : findAt g s t k = none) {p : List String} (hlen : p.length = k + 1)
    (hhead : p.head? = some s) (hlast : p.getLast? = some t)
    (hchain : p.Chain' (adj g)) : False := by
  simp only [findAt, Option.map_eq_none'] at h
  have hmem : p.reverse ∈ layers g s k := by
    apply mem_layers.mpr
    refine ⟨by simpa using hlen, ?_, ?_⟩
    · rw [List.getLast?_reverse]
      exact hhead
    · rw [List.chain'_reverse]
      simpa [Function.flip_def] using hchain
  have := List.find?_eq_none.mp h p.reverse hmem
  apply this
  apply decide_eq_true
  rw [List.head?_reverse]
  exact hlast

lemma searchUpTo_none {g : KnowledgeGraph} {s t : String} :
    ∀ {k : ℕ}, searchUpTo g s t k = none ↔ ∀ j ≤ k, findAt g s t j = none := by
  intro k
  induction k with
  | zero =>
    constructor
    · intro h j hj
      rcases Nat.le_zero.mp hj with rfl
      exact h
    · intro h
      exact h 0 le_rfl
  | succ k ih =>
    constructor
    · intro h j hj
      rcases hcase : searchUpTo g s t k with _ | q
      · rcases Nat.lt_succ_iff_lt_or_eq.mp (Nat.lt_succ_of_le hj) with hlt | rfl
        · exact ih.mp hcase j (Nat.lt_succ_iff.mp hlt)
        · simpa [searchUpTo, hcase] using h
      · simp [searchUpTo, hcase] at h
    · intro h
      have hk : searchUpTo g s t k = none :=
        ih.mpr (fun j hj => h j (Nat.le_succ_of_le hj))
      simp [searchUpTo, hk]
      exact h (k + 1) le_rfl

lemma searchUpTo_some {g : KnowledgeGraph} {s t : String} :
    ∀ {k : ℕ} {p : List String}, searchUpTo g s t k = some p →
      ∃ j ≤ k, findAt g s t j = some p ∧ ∀ i < j, findAt g s t i = none := by
  intro k
  induction k with
  | zero =>
    intro p h
    exact ⟨0, le_rfl, h, fun i hi => absurd hi (Nat.not_lt_zero i)⟩
  | succ k ih =>
    intro p h
    rcases hcase : searchUpTo g s t k with _ | q
    · have hfind : findAt g s t (k + 1) = some p := by
        simpa [searchUpTo, hcase] using h
      refine ⟨k + 1, le_rfl, hfind, ?_⟩
      intro i hi
      exact searchUpTo_none.mp hcase i (Nat.lt_succ_iff.mp hi)
    · have hp : q = p := by simpa [searchUpTo, hcase] using h
      subst hp
      obtain ⟨j, hj, hfind, hnone⟩ := ih hcase
      exact ⟨j, Nat.le_succ_of_le hj, hfind, hnone⟩

lemma not_nodup_split {l : List String} (h : ¬ l.Nodup) :
    ∃ (a : String) (l₁ l₂ l₃ : List String), l = l₁ ++ a :: l₂ ++ a :: l₃ := by
  induction l with
  | nil => exact absurd List.nodup_nil h
  | cons x xs ih =>
    by_cases hx : x ∈ xs
    · obtain ⟨l₂, l₃, rfl⟩ := List.append_of_mem hx
      exact ⟨x, [], l₂, l₃, rfl⟩
    · have hxs : ¬ xs.Nodup := fun hc => h (List.nodup_cons.mpr ⟨hx, hc⟩)
      obtain ⟨a, l₁, l₂, l₃, rfl⟩ := ih hxs
      exact ⟨a, x :: l₁, l₂, l₃, rfl⟩

lemma exists_nodup_walk (g : KnowledgeGraph) (s t : String) :
    ∀ (n : ℕ) (p : List String), p.length ≤ n → p.head? = some s →
      p.getLast? = some t → p.Chain' (adj g) →
      ∃ q : List String, q.Nodup ∧ q.head? = some s ∧ q.getLast? = some t ∧
        q.Chain' (adj g) ∧ q.length ≤ p.length := by
  intro n
  induction n with
  | zero =>
    intro p hlen hhead _ _
    rcases List.length_eq_zero.mp (Nat.le_zero.mp hlen) with rfl
    simp at hhead
  | succ n ih =>
    intro p hlen hhead hlast hchain
    by_cases hnd : p.Nodup
    · exact ⟨p, hnd, hhead, hlast, hchain, le_rfl⟩
    · obtain ⟨a, l₁, l₂, l₃, rfl⟩ := not_nodup_split hnd
      have hassoc : l₁ ++ a :: l₂ ++ a :: l₃ = (l₁ ++ a :: l₂) ++ (a :: l₃) := by
        simp
      have hshort : (l₁ ++ a :: l₃).length < (l₁ ++ a :: l₂ ++ a :: l₃).length := by
        simp only [List.length_append, List.length_cons]
        omega
      have hhead₀ : (l₁ ++ a :: l₃).head? = some s := by
        cases l₁ with
        | nil => simpa using hhead
        | cons x l₁' => simpa using hhead
      have hlast₀ : (l₁ ++ a :: l₃).getLast? = some t := by
        rw [hassoc] at hlast
        rw [List.getLast?_append_of_ne_nil _ (by simp)] at hlast
        rw [List.getLast?_append_of_ne_nil _ (by simp)]
        exact hlast
      have hchain₀ : (l₁ ++ a :: l₃).Chain' (adj g) := by
        rw [hassoc, List.chain'_append] at hchain
        obtain ⟨hc₁, hc₂, hlink⟩ := hchain
        rw [List.chain'_append] at hc₁
        obtain ⟨hcl₁, _, hlink₁⟩ := hc₁
        rw [List.chain'_append]
        refine ⟨hcl₁, hc₂, ?_⟩
        intro x hx y hy
        simp only [List.head?_cons, Option.mem_def, Option.some.injEq] at hy
        subst hy
        exact hlink₁ x hx a rfl
      have hlen₀ : (l₁ ++ a :: l₃).length ≤ n := by
        have := hlen
        simp only [List.length_append, List.length_cons] at this hshort ⊢
        omega
      obtain ⟨q, hqnd, hqh, hql, hqc, hqlen⟩ := ih (l₁ ++ a :: l₃) hlen₀ hhead₀ hlast₀ hchain₀
      exact ⟨q, hqnd, hqh, hql, hqc, le_of_lt (lt_of_le_of_lt hqlen hshort)⟩

lemma walk_nodes_mem {g : KnowledgeGraph} (hwf : WF g) :
    ∀ (p : List String) (s : String), p.Chain' (adj g) → p.head? = some s →
      s ∈ nodeIds g → ∀ x ∈ p, x ∈ nodeIds g := by
  intro p
  induction p with
  | nil => intro s _ hhead _ x hx; simp at hx
  | cons y ys ih =>
    intro s hchain hhead hs x hx
    have hys : y = s := by simpa using hhead
    subst hys
    rcases List.mem_cons.mp hx with rfl | hx
    · exact hs
    · cases ys with
      | nil => simp at hx
      | cons z zs =>
        rw [List.chain'_cons] at hchain
        have hz : z ∈ nodeIds g := by
          obtain ⟨e, he, _, htgt⟩ := hchain.1
          exact htgt ▸ hwf.edgeTgt e he
        exact ih z hchain.2 rfl hz x hx

lemma walk_length_le_node_count {g : KnowledgeGraph} (hwf : WF g)
    {q : List String} {s : String} (hchain : q.Chain' (adj g))
    (hhead : q.head? = some s) (hs : s ∈ nodeIds g) (hnd : q.Nodup) :
    q.length ≤ get_node_count g := by
  have hsub : q ⊆ nodeIds g :=
    fun x hx => walk_nodes_mem hwf q s hchain hhead hs x hx
  have hle := (hnd.subperm hsub).length_le
  simpa [get_node_count, nodeIds, dkeys] using hle

/-- C3: `find_path` is breadth-first shortest path by hop count over the
directed edges: it raises networkx's `NodeNotFound` exactly when an endpoint
is missing; an `ok (some p)` result is a directed walk from source to target
of minimum length among all such walks; `ok none` ("no path", distinct from
the error) means no directed walk exists; a present node reaches itself by
the singleton path; and the A→B→C chain yields `[A, B, C]`. -/
theorem C3_shortest_path (ops : List Op) (s t a : String) (p : List String) :
    ((∃ r, find_path (run ops) s t = .ok r) ↔
      (memGraph (run ops) s ∧ memGraph (run ops) t)) ∧
    (¬ (memGraph (run ops) s ∧ memGraph (run ops) t) →
      find_path (run ops) s t = .error (nodeNotFoundMsg s t)) ∧
    (find_path (run ops) s t = .ok (some p) →
      p.head? = some s ∧ p.getLast? = some t ∧ p.Chain' (adj (run ops)) ∧
      ∀ q : List String, q.head? = some s → q.getLast? = some t →
        q.Chain' (adj (run ops)) → p.length ≤ q.length) ∧
    (find_path (run ops) s t = .ok none →
      ¬ ∃ q : List String, q.head? = some s ∧ q.getLast? = some t ∧
        q.Chain' (adj (run ops))) ∧
    (memGraph (run ops) a → find_path (run ops) a a = .ok (some [a])) ∧
    find_path chainGraph "A" "C" = .ok (some ["A", "B", "C"]) := by
  have hwf := wf_run ops
  refine ⟨?_, ?_, ?_, ?_, ?_, by decide⟩
  · constructor
    · intro ⟨r, hr⟩
      by_contra hc
      rw [find_path, if_neg hc] at hr
      exact Except.noConfusion hr
    · intro hc
      exact ⟨_, by rw [find_path, if_pos hc]⟩
  · intro hc
    rw [find_path, if_neg hc]
  · intro h
    have hcond : memGraph (run ops) s ∧ memGraph (run ops) t := by
      by_contra hc
      rw [find_path, if_neg hc] at h
      exact Except.noConfusion h
    rw [find_path, if_pos hcond] at h
    have hsearch : searchUpTo (run ops) s t (get_node_count (run ops)) = some p := by
      simpa using h
    obtain ⟨j, _, hfind, hnone⟩ := searchUpTo_some hsearch
    obtain ⟨hplen, hphead, hplast, hpchain⟩ := findAt_some hfind
    refine ⟨hphead, hplast, hpchain, ?_⟩
    intro q hqh hql hqc
    by_contra hlt
    push_neg at hlt
    have hqpos : q ≠ [] := by
      intro hc
      rw [hc] at hqh
      exact Option.noConfusion hqh
    have hqlen : 1 ≤ q.length := List.length_pos.mpr hqpos
    have hi : q.length - 1 < j := by omega
    exact findAt_none (hnone (q.length - 1) hi) (by omega) hqh hql hqc
  · intro h hq
    obtain ⟨q, hqh, hql, hqc⟩ := hq
    have hcond : memGraph (run ops) s ∧ memGraph (run ops) t := by
      by_contra hc
      rw [find_path, if_neg hc] at h
      exact Except.noConfusion h
    rw [find_path, if_pos hcond] at h
    have hsearch : searchUpTo (run ops) s t (get_node_count (run ops)) = none := by
      simpa using h
    obtain ⟨q', hq'nd, hq'h, hq'l, hq'c, _⟩ :=
      exists_nodup_walk (run ops) s t q.length q le_rfl hqh hql hqc
    have hq'len : q'.length ≤ get_node_count (run ops) :=
      walk_length_le_node_count hwf hq'c hq'h hcond.1 hq'nd
    have hq'pos : 1 ≤ q'.length := by
      apply List.length_pos.mpr
      intro hc
      rw [hc] at hq'h
      exact Option.noConfusion hq'h
    exact findAt_none
      (searchUpTo_none.mp hsearch (q'.length - 1) (by omega)) (by omega) hq'h hq'l hq'c
  · intro ha
    rw [find_path, if_pos ⟨ha, ha⟩]
    have h0 : findAt (run ops) a a 0 = some [a] := by
      simp [findAt, layers]
    have hall : ∀ k, searchUpTo (run ops) a a k = some [a] := by
      intro k
      induction k with
      | zero => exact h0
      | succ k ih => simp [searchUpTo, ih]
    rw [hall]

/-- Witness for C3 on the concrete chain graph. -/
theorem C3_shortest_path_witness :
    (memGraph chainGraph "B" ∧
      find_path chainGraph "B" "B" = .ok (some ["B"])) ∧
    find_path chainGraph "A" "C" = .ok (some ["A", "B", "C"]) := by
  have hm : memGraph chainGraph "B" := by decide
  have h := C3_shortest_path chainOps "A" "C" "B" []
  exact ⟨⟨hm, h.2.2.2.2.1 hm⟩, h.2.2.2.2.2⟩

lemma add_edge_ok_frame {g g' : KnowledgeGraph} {s t rel : String} {w : ℚ}
    (h : add_edge g s t rel w = .ok g') :
    g'.gnodeAttrs = g.gnodeAttrs ∧ g'.nodes_data = g.nodes_data := by
  by_cases hmem : ¬ memGraph g s ∨ ¬ memGraph g t
  · simp [add_edge, hmem] at h
  · by_cases hedge : hasEdge g s t
    · simp only [add_edge, if_neg hmem, if_pos hedge, Except.ok.injEq] at h
      subst h
      exact ⟨rfl, rfl⟩
    · simp only [add_edge, if_neg hmem, if_neg hedge, Except.ok.injEq] at h
      subst h
      exact ⟨rfl, rfl⟩

lemma loadEdgeStep_frame (g : KnowledgeGraph) (ed : EdgeDict) :
    (loadEdgeStep g ed).gnodeAttrs = g.gnodeAttrs ∧
    (loadEdgeStep g ed).nodes_data = g.nodes_data := by
  unfold loadEdgeStep
  split
  · split
    · split
      · rename_i g' hres
        exact add_edge_ok_frame hres
      · exact ⟨rfl, rfl⟩
    · exact ⟨rfl, rfl⟩
  · exact ⟨rfl, rfl⟩

lemma loadEdges_frame (eds : List EdgeDict) :
    ∀ g : KnowledgeGraph,
      (eds.foldl loadEdgeStep g).gnodeAttrs = g.gnodeAttrs ∧
      (eds.foldl loadEdgeStep g).nodes_data = g.nodes_data := by
  induction eds with
  | nil => exact fun g => ⟨rfl, rfl⟩
  | cons ed rest ih =>
    intro g
    have h1 := loadEdgeStep_frame g ed
    have h2 := ih (loadEdgeStep g ed)
    exact ⟨h2.1.trans h1.1, h2.2.trans h1.2⟩

lemma add_edge_ok_pairs {g g' : KnowledgeGraph} {s t rel : String} {w : ℚ}
    (h : add_edge g s t rel w = .ok g') :
    edgePairs g' = edgePairs g ∨ edgePairs g' = edgePairs g ++ [(s, t)] := by
  by_cases hmem : ¬ memGraph g s ∨ ¬ memGraph g t
  · simp [add_edge, hmem] at h
  · by_cases hedge : hasEdge g s t
    · simp only [add_edge, if_neg hmem, if_pos hedge, Except.ok.injEq] at h
      subst h
      left
      exact map_pair_updateEdgeList _ _ _ _ _
    · simp only [add_edge, if_neg hmem, if_neg hedge, Except.ok.injEq] at h
      subst h
      right
      show (g.gedges ++ [(⟨s, t, rel, w⟩ : EdgeRec)]).map (fun e => (e.source, e.target)) = _
      rw [List.map_append]
      rfl

lemma loadEdgeStep_pair_mono {g : KnowledgeGraph} {ed : EdgeDict}
    {q : String × String} (h : q ∈ edgePairs g) :
    q ∈ edgePairs (loadEdgeStep g ed) := by
  unfold loadEdgeStep
  split
  · split
    · split
      · rename_i g' hres
        rcases add_edge_ok_pairs hres with hp | hp
        · rw [hp]
          exact h
        · rw [hp]
          exact List.mem_append_left _ h
      · exact h
    · exact h
  · exact h

lemma loadEdges_pair_mono (eds : List EdgeDict) :
    ∀ (g : KnowledgeGraph) (q : String × String), q ∈ edgePairs g →
      q ∈ edgePairs (eds.foldl loadEdgeStep g) := by
  induction eds with
  | nil => exact fun g q h => h
  | cons ed rest ih =>
    intro g q h
    exact ih _ _ (loadEdgeStep_pair_mono h)

lemma loadEdgeStep_pair_adds {g : KnowledgeGraph} {s t : String}
    (rel : Option String) (w : Option ℚ) (hs : s ≠ "") (ht : t ≠ "")
    (hms : memGraph g s) (hmt : memGraph g t) :
    (s, t) ∈ edgePairs (loadEdgeStep g ⟨some s, some t, rel, w⟩) := by
  have hcond : ¬ (¬ memGraph g s ∨ ¬ memGraph g t) := by tauto
  show (s, t) ∈ edgePairs
    (if s ≠ "" ∧ t ≠ "" ∧ memGraph g s ∧ memGraph g t then
      match add_edge g s t (rel.getD "related_to") (w.getD 1) with
      | .ok g' => g'
      | .error _ => g
    else g)
  rw [if_pos ⟨hs, ht, hms, hmt⟩]
  by_cases hedge : hasEdge g s t
  · rw [add_edge, if_neg hcond, if_pos hedge]
    show (s, t) ∈ (updateEdgeList g.gedges s t _ _).map (fun e => (e.source, e.target))
    rw [map_pair_updateEdgeList]
    exact hedge
  · rw [add_edge, if_neg hcond, if_neg hedge]
    show (s, t) ∈ (g.gedges ++
      [(⟨s, t, rel.getD "related_to", w.getD 1⟩ : EdgeRec)]).map
        (fun e => (e.source, e.target))
    rw [List.map_append]
    apply List.mem_append_right
    simp

lemma wf_sync {g : KnowledgeGraph} (h : WF g) : WF (sync_edges_data g) :=
  ⟨h.nodesNodup, h.ndKeys, h.ndAlign, h.edgeSrc, h.edgeTgt, h.pairsNodup⟩

lemma wf_loadNodeStep {g : KnowledgeGraph} (h : WF g) (nd : NodeDict) :
    WF (loadNodeStep g nd) := by
  unfold loadNodeStep
  split
  · split
    · exact h
    · exact wf_add_node h _ _ _
  · exact h

lemma wf_loadEdgeStep {g : KnowledgeGraph} (h : WF g) (ed : EdgeDict) :
    WF (loadEdgeStep g ed) := by
  unfold loadEdgeStep
  split
  · split
    · split
      · rename_i g' hres
        exact wf_add_edge h hres
      · exact h
    · exact h
  · exact h

lemma wf_load_from_dict (g : KnowledgeGraph) (d : GraphDict) :
    WF (load_from_dict g d) := by
  apply wf_sync
  have h1 : WF (d.nodes.foldl loadNodeStep KnowledgeGraph.empty) := by
    have hgen : ∀ (nds : List NodeDict) (g0 : KnowledgeGraph), WF g0 →
        WF (nds.foldl loadNodeStep g0) := by
      intro nds
      induction nds with
      | nil => exact fun g0 h0 => h0
      | cons nd rest ih => exact fun g0 h0 => ih _ (wf_loadNodeStep h0 nd)
    exact hgen _ _ wf_empty
  have h2 : ∀ (eds : List EdgeDict) (g1 : KnowledgeGraph), WF g1 →
      WF (eds.foldl loadEdgeStep g1) := by
    intro eds
    induction eds with
    | nil => exact fun g1 hw => hw
    | cons ed rest ih => exact fun g1 hw => ih _ (wf_loadEdgeStep hw ed)
  exact h2 _ _ h1

/-- The intermediate state of `load_from_dict` after the node-loading loop
and before the edge-loading loop (nodes are loaded strictly first). -/
def loadNodes (d : GraphDict) : KnowledgeGraph :=
  d.nodes.foldl loadNodeStep KnowledgeGraph.empty

lemma nodeIds_loadEdgeStep (g : KnowledgeGraph) (ed : EdgeDict) :
    nodeIds (loadEdgeStep g ed) = nodeIds g := by
  show dkeys (loadEdgeStep g ed).gnodeAttrs = _
  rw [(loadEdgeStep_frame g ed).1]
  rfl

lemma loadEdges_pair_complete :
    ∀ (eds : List EdgeDict) (g1 : KnowledgeGraph) (ed : EdgeDict) (s t : String),
      ed ∈ eds → ed.source = some s → ed.target = some t →
      s ≠ "" → t ≠ "" → s ∈ nodeIds g1 → t ∈ nodeIds g1 →
      (s, t) ∈ edgePairs (eds.foldl loadEdgeStep g1) := by
  intro eds
  induction eds with
  | nil =>
    intro g1 ed s t hmem
    simp at hmem
  | cons ed₀ rest ih =>
    intro g1 ed s t hmem hs ht hs0 ht0 hms hmt
    rw [List.foldl_cons]
    rcases List.mem_cons.mp hmem with rfl | hmem
    · obtain ⟨eds, edt, edr, edw⟩ := ed
      simp only at hs ht
      subst hs
      subst ht
      apply loadEdges_pair_mono
      exact loadEdgeStep_pair_adds edr edw hs0 ht0 hms hmt
    · apply ih _ ed s t hmem hs ht hs0 ht0
      · rw [nodeIds_loadEdgeStep]
        exact hms
      · rw [nodeIds_loadEdgeStep]
        exact hmt

/-- A snapshot using the legacy `node_id`/`node_type` keys, omitting optional
fields, and containing one edge with a nonexistent endpoint. -/
def legacySnapshot : GraphDict :=
  { nodes := [⟨none, some "A", none, some "skill", none⟩,
              ⟨some "B", none, none, none, some [("x", "1")]⟩],
    edges := [⟨some "A", some "B", none, none⟩,
              ⟨some "A", some "C", some "uses", some 2⟩] }

/-- C7: `load_from_dict` clears the previous state (the result does not depend
on the receiver), loads nodes strictly before edges, accepts the legacy
`node_id`/`node_type` keys, applies the documented defaults (type "concept",
relationship "related_to", weight 1.0), silently drops any edge whose
endpoints are not both loaded nodes (never an error: the operation is a total
function), and keeps every edge both of whose endpoints were loaded. -/
theorem C7_restore_tolerant_loading (g : KnowledgeGraph) (d : GraphDict) :
    load_from_dict g d = load_from_dict KnowledgeGraph.empty d ∧
    (∀ e ∈ (load_from_dict g d).gedges,
        e.source ∈ nodeIds (load_from_dict g d) ∧
        e.target ∈ nodeIds (load_from_dict g d)) ∧
    (∀ ed ∈ d.edges, ∀ s t : String, ed.source = some s → ed.target = some t →
        s ≠ "" → t ≠ "" → s ∈ nodeIds (loadNodes d) → t ∈ nodeIds (loadNodes d) →
        (s, t) ∈ edgePairs (load_from_dict g d)) ∧
    load_from_dict KnowledgeGraph.empty legacySnapshot =
      ⟨[("A", [("node_type", "skill")]),
        ("B", [("node_type", "concept"), ("x", "1")])],
       [⟨"A", "B", "related_to", 1⟩],
       [("A", ⟨"A", "skill", []⟩), ("B", ⟨"B", "concept", [("x", "1")]⟩)],
       [⟨"A", "B", "related_to", 1⟩]⟩ := by
  have hwf := wf_load_from_dict g d
  refine ⟨rfl, fun e he => ⟨hwf.edgeSrc e he, hwf.edgeTgt e he⟩, ?_, by
    with_unfolding_all decide⟩
  intro ed hed s t hs ht hs0 ht0 hms hmt
  show (s, t) ∈ edgePairs (sync_edges_data (d.edges.foldl loadEdgeStep (loadNodes d)))
  show (s, t) ∈ edgePairs (d.edges.foldl loadEdgeStep (loadNodes d))
  exact loadEdges_pair_complete d.edges (loadNodes d) ed s t hed hs ht hs0 ht0 hms hmt

/-- Witness for C7: the legacy snapshot keeps the A→B edge (both endpoints
loaded) and the loaded store is the expected one. -/
theorem C7_restore_tolerant_loading_witness :
    ((⟨some "A", some "B", none, none⟩ : EdgeDict) ∈ legacySnapshot.edges ∧
      "A" ∈ nodeIds (loadNodes legacySnapshot) ∧
      "B" ∈ nodeIds (loadNodes legacySnapshot)) ∧
    ("A", "B") ∈ edgePairs (load_from_dict KnowledgeGraph.empty legacySnapshot) := by
  have h1 : (⟨some "A", some "B", none, none⟩ : EdgeDict) ∈ legacySnapshot.edges := by
    with_unfolding_all decide
  have h2 : "A" ∈ nodeIds (loadNodes legacySnapshot) := by
    with_unfolding_all decide
  have h3 : "B" ∈ nodeIds (loadNodes legacySnapshot) := by
    with_unfolding_all decide
  have h := C7_restore_tolerant_loading KnowledgeGraph.empty legacySnapshot
  exact ⟨⟨h1, h2, h3⟩, h.2.2.1 _ h1 "A" "B" rfl rfl (by decide) (by decide) h2 h3⟩

lemma dget?_eq_none {α : Type} {d : Dict α} {k : String} (h : k ∉ dkeys d) :
    dget? d k = none := by
  cases hc : dget? d k with
  | none => rfl
  | some v => exact absurd (dget?_isSome.mpr ⟨v, hc⟩) h

lemma loadNodes_spec :
    ∀ (L : Dict NodeData) (g0 : KnowledgeGraph),
      (∀ kv ∈ L, kv.2.id = kv.1 ∧ kv.1 ≠ "" ∧ kv.1 ∉ nodeIds g0) →
      (dkeys L).Nodup →
      dkeys g0.nodes_data = nodeIds g0 →
      (L.map (fun kv => (⟨some kv.2.id, none, some kv.2.type, none,
          some kv.2.properties⟩ : NodeDict))).foldl loadNodeStep g0
        = { g0 with
            gnodeAttrs := g0.gnodeAttrs ++ L.map
              (fun kv => (kv.1, dupdate [("node_type", kv.2.type)] kv.2.properties)),
            nodes_data := g0.nodes_data ++ L } := by
  intro L
  induction L with
  | nil =>
    intro g0 _ _ _
    simp
  | cons kv rest ih =>
    obtain ⟨k, nd⟩ := kv
    intro g0 hprops hnodup hkeys
    obtain ⟨hid, hne, hnotin⟩ := hprops (k, nd) (List.mem_cons_self _ _)
    simp only at hid hne hnotin
    subst hid
    rw [List.map_cons, List.foldl_cons]
    have hstep : loadNodeStep g0
        ⟨some nd.id, none, some nd.type, none, some nd.properties⟩
        = add_node g0 nd.id nd.type nd.properties := by
      simp [loadNodeStep, pyOr, hne]
    rw [hstep]
    have hadd : add_node g0 nd.id nd.type nd.properties
        = { g0 with
            gnodeAttrs := g0.gnodeAttrs ++
              [(nd.id, dupdate [("node_type", nd.type)] nd.properties)],
            nodes_data := g0.nodes_data ++ [(nd.id, nd)] } := by
      rw [add_node]
      rw [dget?_eq_none hnotin]
      rw [dset_not_mem _ hnotin, dset_not_mem _ (hkeys ▸ hnotin)]
    rw [hadd]
    rw [dkeys_cons] at hnodup
    have hnodup' := List.nodup_cons.mp hnodup
    rw [ih _ ?_ hnodup'.2 ?_]
    · simp
    · intro kv hkv
      obtain ⟨ha, hb, hc⟩ := hprops kv (List.mem_cons_of_mem _ hkv)
      refine ⟨ha, hb, ?_⟩
      show kv.1 ∉ dkeys (g0.gnodeAttrs ++ [(nd.id, _)])
      rw [dkeys, List.map_append]
      intro hmem
      rcases List.mem_append.mp hmem with hmem | hmem
      · exact hc hmem
      · simp at hmem
        apply hnodup'.1
        rw [← hmem]
        exact List.mem_map.mpr ⟨kv, hkv, rfl⟩
    · show dkeys (g0.nodes_data ++ [(nd.id, nd)]) = dkeys (g0.gnodeAttrs ++ _)
      rw [dkeys, dkeys, List.map_append, List.map_append]
      rw [show (List.map (·.1) g0.nodes_data : List String) = dkeys g0.nodes_data from rfl,
        hkeys]
      rfl

lemma loadEdges_spec :
    ∀ (E : List EdgeRec) (g1 : KnowledgeGraph),
      (∀ e ∈ E, e.source ∈ nodeIds g1 ∧ e.target ∈ nodeIds g1 ∧
        e.source ≠ "" ∧ e.target ≠ "") →
      (E.map (fun e => (e.source, e.target))).Nodup →
      (∀ e ∈ E, (e.source, e.target) ∉ edgePairs g1) →
      (E.map (fun e => (⟨some e.source, some e.target, some e.relationship,
          some e.weight⟩ : EdgeDict))).foldl loadEdgeStep g1
        = { g1 with gedges := g1.gedges ++ E, edges_data := g1.edges_data ++ E } := by
  intro E
  induction E with
  | nil =>
    intro g1 _ _ _
    simp
  | cons e rest ih =>
    intro g1 hprops hnodup hfresh
    obtain ⟨hms, hmt, hs0, ht0⟩ := hprops e (List.mem_cons_self _ _)
    have hnotpair := hfresh e (List.mem_cons_self _ _)
    rw [List.map_cons, List.foldl_cons]
    have hcond : ¬ (¬ memGraph g1 e.source ∨ ¬ memGraph g1 e.target) := by
      tauto
    have hstep : loadEdgeStep g1
        ⟨some e.source, some e.target, some e.relationship, some e.weight⟩
        = { g1 with gedges := g1.gedges ++ [e], edges_data := g1.edges_data ++ [e] } := by
      show (if e.source ≠ "" ∧ e.target ≠ "" ∧ memGraph g1 e.source ∧ memGraph g1 e.target
        then match add_edge g1 e.source e.target
            ((some e.relationship).getD "related_to") ((some e.weight).getD 1) with
          | .ok g' => g'
          | .error _ => g1
        else g1) = _
      rw [if_pos ⟨hs0, ht0, hms, hmt⟩]
      rw [add_edge, if_neg hcond, if_neg hnotpair]
      rfl
    rw [hstep]
    rw [List.map_cons] at hnodup
    have hnodup' := List.nodup_cons.mp hnodup
    rw [ih _ ?_ hnodup'.2 ?_]
    · simp
    · intro e' he'
      obtain ⟨ha, hb, hc, hd⟩ := hprops e' (List.mem_cons_of_mem _ he')
      exact ⟨ha, hb, hc, hd⟩
    · intro e' he'
      show (e'.source, e'.target) ∉ (g1.gedges ++ [e]).map (fun x => (x.source, x.target))
      rw [List.map_append]
      intro hmem
      rcases List.mem_append.mp hmem with hmem | hmem
      · exact hfresh e' (List.mem_cons_of_mem _ he') hmem
      · simp at hmem
        apply hnodup'.1
        refine List.mem_map.mpr ⟨e', he', ?_⟩
        rw [hmem.1, hmem.2]

lemma applyOp_ids_nonempty {g : KnowledgeGraph}
    (hg : ∀ i ∈ nodeIds g, i ≠ "") {op : Op} (hop : opValid op) :
    ∀ i ∈ nodeIds (applyOp g op), i ≠ "" := by
  cases op with
  | addNode j ty p =>
    have hgen : ∀ i ∈ nodeIds (match add_node_checked g j ty p with
        | .ok g' => g' | .error _ => g), i ≠ "" := by
      cases hcall : add_node_checked g j ty p with
      | ok g' =>
        rw [add_node_checked_ok hcall]
        intro i hi
        rcases (mem_nodeIds_add_node g j ty p i).mp hi with rfl | hi
        · exact hop
        · exact hg i hi
      | error e => exact hg
    exact hgen
  | addEdge s t rel w =>
    intro i hi
    show i ≠ ""
    have : nodeIds (applyOp g (.addEdge s t rel w)) = nodeIds g := by
      show nodeIds (match add_edge g s t rel w with
        | .ok g' => g' | .error _ => g) = nodeIds g
      cases hres : add_edge g s t rel w with
      | ok g' =>
        show dkeys g'.gnodeAttrs = dkeys g.gnodeAttrs
        rw [(add_edge_ok_frame hres).1]
      | error e => rfl
    rw [this] at hi
    exact hg i hi
  | removeNode j =>
    intro i hi
    show i ≠ ""
    apply hg i
    show i ∈ nodeIds g
    by_cases hm : memGraph g j
    · rw [show applyOp g (.removeNode j) = remove_node g j from rfl,
        remove_node, if_pos hm] at hi
      have : i ∈ dkeys (ddel g.gnodeAttrs j) := hi
      rw [dkeys_ddel] at this
      exact (List.mem_filter.mp this).1
    · rwa [show applyOp g (.removeNode j) = remove_node g j from rfl,
        remove_node, if_neg hm] at hi

lemma run_ids_nonempty (ops : List Op) (hv : ∀ op ∈ ops, opValid op) :
    ∀ i ∈ nodeIds (run ops), i ≠ "" := by
  suffices hgen : ∀ (l : List Op) (g : KnowledgeGraph),
      (∀ op ∈ l, opValid op) → (∀ i ∈ nodeIds g, i ≠ "") →
      ∀ i ∈ nodeIds (l.foldl applyOp g), i ≠ "" by
    exact hgen ops KnowledgeGraph.empty hv (by simp [KnowledgeGraph.empty, nodeIds, dkeys])
  intro l
  induction l with
  | nil => exact fun g _ hg => hg
  | cons op rest ih =>
    intro g hvl hg
    exact ih _ (fun o ho => hvl o (List.mem_cons_of_mem _ ho))
      (applyOp_ids_nonempty hg (hvl op (List.mem_cons_self _ _)))

lemma degree_congr {g₁ g₂ : KnowledgeGraph} (hE : g₁.gedges = g₂.gedges) :
    ∀ u, degree g₁ u = degree g₂ u := by
  intro u
  rw [degree, degree, hE]

lemma layers_congr {g₁ g₂ : KnowledgeGraph} (hE : g₁.gedges = g₂.gedges) :
    ∀ (s : String) (k : ℕ), layers g₁ s k = layers g₂ s k := by
  have hsucc : ∀ u, succs g₁ u = succs g₂ u := by
    intro u
    rw [succs, succs, hE]
  intro s k
  induction k with
  | zero => rfl
  | succ k ih =>
    rw [layers, layers, ih]
    congr 1
    apply List.map_congr_left
    intro w _
    cases w with
    | nil => rfl
    | cons u rest =>
      show (succs g₁ u).map (fun v => v :: u :: (u :: rest).tail)
        = (succs g₂ u).map (fun v => v :: u :: (u :: rest).tail)
      rw [hsucc]

lemma searchUpTo_congr {g₁ g₂ : KnowledgeGraph} (hE : g₁.gedges = g₂.gedges) :
    ∀ (s t : String) (k : ℕ), searchUpTo g₁ s t k = searchUpTo g₂ s t k := by
  have hfind : ∀ s t k, findAt g₁ s t k = findAt g₂ s t k := by
    intro s t k
    rw [findAt, findAt, layers_congr hE]
  intro s t k
  induction k with
  | zero => exact hfind s t 0
  | succ k ih => rw [searchUpTo, searchUpTo, ih, hfind]

lemma find_path_congr {g₁ g₂ : KnowledgeGraph} (hIds : nodeIds g₁ = nodeIds g₂)
    (hE : g₁.gedges = g₂.gedges) :
    ∀ x y, find_path g₁ x y = find_path g₂ x y := by
  intro x y
  have hcount : get_node_count g₁ = get_node_count g₂ := by
    have h1 := congrArg List.length hIds
    simpa [nodeIds, dkeys, get_node_count] using h1
  by_cases hc : memGraph g₂ x ∧ memGraph g₂ y
  · have hc₁ : memGraph g₁ x ∧ memGraph g₁ y := by
      unfold memGraph
      rw [hIds]
      exact hc
    rw [find_path, find_path, if_pos hc₁, if_pos hc, hcount, searchUpTo_congr hE]
  · have hc₁ : ¬ (memGraph g₁ x ∧ memGraph g₁ y) := by
      unfold memGraph
      rw [hIds]
      exact hc
    rw [find_path, find_path, if_neg hc₁, if_neg hc]

lemma get_most_connected_nodes_congr {g₁ g₂ : KnowledgeGraph}
    (hIds : nodeIds g₁ = nodeIds g₂) (hE : g₁.gedges = g₂.gedges) :
    ∀ n, get_most_connected_nodes g₁ n = get_most_connected_nodes g₂ n := by
  intro n
  rw [get_most_connected_nodes, get_most_connected_nodes, hIds]
  congr 2
  apply List.map_congr_left
  intro u _
  rw [degree_congr hE]

lemma flatten_filter_perm :
    ∀ (us : List String) (l : List EdgeRec), us.Nodup →
      (∀ e ∈ l, e.source ∈ us) →
      ((us.map (fun u => l.filter (fun e => e.source = u))).flatten).Perm l := by
  intro us
  induction us with
  | nil =>
    intro l _ hsrc
    cases l with
    | nil => simp
    | cons e rest => exact absurd (hsrc e (List.mem_cons_self _ _)) (by simp)
  | cons u us' ih =>
    intro l hnd hsrc
    rw [List.map_cons, List.flatten_cons]
    have hnd' := List.nodup_cons.mp hnd
    have hmapeq : us'.map (fun v => l.filter (fun e => e.source = v))
        = us'.map (fun v => (l.filter (fun e => e.source ≠ u)).filter
            (fun e => e.source = v)) := by
      apply List.map_congr_left
      intro v hv
      rw [List.filter_filter]
      apply List.filter_congr
      intro e _
      by_cases hev : e.source = v
      · have hvu : v ≠ u := fun hc => hnd'.1 (hc ▸ hv)
        have heu : e.source ≠ u := fun hc => hvu (hev.symm.trans hc)
        simp [hev, heu, hvu]
      · simp [hev]
    rw [hmapeq]
    have hrest : ∀ e ∈ l.filter (fun e => e.source ≠ u), e.source ∈ us' := by
      intro e he
      rw [List.mem_filter] at he
      have h2 := of_decide_eq_true he.2
      rcases List.mem_cons.mp (hsrc e he.1) with hc | hc
      · exact absurd hc h2
      · exact hc
    have hperm := ih (l.filter (fun e => e.source ≠ u)) hnd'.2 hrest
    refine (List.Perm.append_left _ hperm).trans ?_
    have hconv : l.filter (fun e => e.source ≠ u)
        = l.filter (fun e => !(decide (e.source = u))) := by
      apply List.filter_congr
      intro e _
      simp
    rw [hconv]
    exact List.filter_append_perm _ l

/-- C4: `Restore(Snapshot())` reproduces an observably identical graph for
every store reachable through the public mutators (whose arguments satisfy
the spec constraint that node ids are non-empty): the same `nodes_data`
(node set with types and properties), the same graph edge list with
relationship and weight, `edges_data` holding the same edges (as a
permutation: `sync_edges_data` rebuilds it in the graph's grouped iteration
order, not in the original insertion order), the same node-id list and
counts, and hence the same degree, shortest-path and top-connected
answers. -/
theorem C4_snapshot_restore_roundtrip (ops : List Op)
    (hv : ∀ op ∈ ops, opValid op) :
    (load_from_dict (run ops) (to_dict (run ops))).nodes_data = (run ops).nodes_data ∧
    (load_from_dict (run ops) (to_dict (run ops))).gedges = (run ops).gedges ∧
    ((load_from_dict (run ops) (to_dict (run ops))).edges_data).Perm
      (run ops).edges_data ∧
    nodeIds (load_from_dict (run ops) (to_dict (run ops))) = nodeIds (run ops) ∧
    get_node_count (load_from_dict (run ops) (to_dict (run ops)))
      = get_node_count (run ops) ∧
    get_edge_count (load_from_dict (run ops) (to_dict (run ops)))
      = get_edge_count (run ops) ∧
    (∀ u, degree (load_from_dict (run ops) (to_dict (run ops))) u
      = degree (run ops) u) ∧
    (∀ x y, find_path (load_from_dict (run ops) (to_dict (run ops))) x y
      = find_path (run ops) x y) ∧
    (∀ n, get_most_connected_nodes (load_from_dict (run ops) (to_dict (run ops))) n
      = get_most_connected_nodes (run ops) n) := by
  have hwf := wf_run ops
  have hne := run_ids_nonempty ops hv
  have hg1 : (to_dict (run ops)).nodes.foldl loadNodeStep KnowledgeGraph.empty
      = { gnodeAttrs := (run ops).nodes_data.map
            (fun kv => (kv.1, dupdate [("node_type", kv.2.type)] kv.2.properties)),
          gedges := [],
          nodes_data := (run ops).nodes_data,
          edges_data := [] } := by
    rw [show (to_dict (run ops)).nodes = (run ops).nodes_data.map
      (fun kv => (⟨some kv.2.id, none, some kv.2.type, none,
        some kv.2.properties⟩ : NodeDict)) from rfl]
    rw [loadNodes_spec (run ops).nodes_data KnowledgeGraph.empty ?_ ?_ rfl]
    · rfl
    · intro kv hkv
      refine ⟨hwf.ndAlign kv hkv, ?_, by simp [KnowledgeGraph.empty, nodeIds, dkeys]⟩
      apply hne
      rw [← hwf.ndKeys]
      exact List.mem_map.mpr ⟨kv, hkv, rfl⟩
    · rw [hwf.ndKeys]
      exact hwf.nodesNodup
  have hkeysX : dkeys ((run ops).nodes_data.map
      (fun kv => (kv.1, dupdate [("node_type", kv.2.type)] kv.2.properties)))
      = nodeIds (run ops) := by
    rw [← hwf.ndKeys]
    simp [dkeys]
  have hIds1 : nodeIds ((to_dict (run ops)).nodes.foldl loadNodeStep
      KnowledgeGraph.empty) = nodeIds (run ops) := by
    rw [hg1]
    exact hkeysX
  have hg2 : (to_dict (run ops)).edges.foldl loadEdgeStep
      ((to_dict (run ops)).nodes.foldl loadNodeStep KnowledgeGraph.empty)
      = { gnodeAttrs := (run ops).nodes_data.map
            (fun kv => (kv.1, dupdate [("node_type", kv.2.type)] kv.2.properties)),
          gedges := (run ops).gedges,
          nodes_data := (run ops).nodes_data,
          edges_data := (run ops).gedges } := by
    rw [show (to_dict (run ops)).edges = (run ops).edges_data.map
      (fun e => (⟨some e.source, some e.target, some e.relationship,
        some e.weight⟩ : EdgeDict)) from rfl]
    rw [run_edges_data_sync]
    have hIds1' : nodeIds
        ({ gnodeAttrs := (run ops).nodes_data.map
             (fun kv => (kv.1, dupdate [("node_type", kv.2.type)] kv.2.properties)),
           gedges := [],
           nodes_data := (run ops).nodes_data,
           edges_data := [] } : KnowledgeGraph) = nodeIds (run ops) := by
      rw [← hg1]
      exact hIds1
    rw [hg1]
    rw [loadEdges_spec (run ops).gedges _ ?_ hwf.pairsNodup ?_]
    · rfl
    · intro e he
      rw [hIds1']
      refine ⟨hwf.edgeSrc e he, hwf.edgeTgt e he, ?_, ?_⟩
      · exact hne _ (hwf.edgeSrc e he)
      · exact hne _ (hwf.edgeTgt e he)
    · intro e _
      show (e.source, e.target) ∉ ([] : List EdgeRec).map _
      simp
  have hfinal : load_from_dict (run ops) (to_dict (run ops))
      = { gnodeAttrs := (run ops).nodes_data.map
            (fun kv => (kv.1, dupdate [("node_type", kv.2.type)] kv.2.properties)),
          gedges := (run ops).gedges,
          nodes_data := (run ops).nodes_data,
          edges_data := ((nodeIds (run ops)).map
            (fun u => (run ops).gedges.filter (fun e => e.source = u))).flatten } := by
    show sync_edges_data ((to_dict (run ops)).edges.foldl loadEdgeStep
      ((to_dict (run ops)).nodes.foldl loadNodeStep KnowledgeGraph.empty)) = _
    rw [hg2]
    show ({ gnodeAttrs :=
              (run ops).nodes_data.map
                (fun kv => (kv.1, dupdate [("node_type", kv.2.type)] kv.2.properties)),
            gedges := (run ops).gedges,
            nodes_data := (run ops).nodes_data,
            edges_data :=
              ((dkeys ((run ops).nodes_data.map
                  (fun kv => (kv.1,
                    dupdate [("node_type", kv.2.type)] kv.2.properties)))).map
                (fun u => (run ops).gedges.filter (fun e => e.source = u))).flatten }
          : KnowledgeGraph) = _
    rw [hkeysX]
  have hIdsFinal : nodeIds (load_from_dict (run ops) (to_dict (run ops)))
      = nodeIds (run ops) := by
    rw [hfinal]
    exact hkeysX
  have hEFinal : (load_from_dict (run ops) (to_dict (run ops))).gedges
      = (run ops).gedges := by
    rw [hfinal]
  refine ⟨by rw [hfinal], hEFinal, ?_, hIdsFinal, ?_, ?_,
    degree_congr hEFinal, find_path_congr hIdsFinal hEFinal,
    get_most_connected_nodes_congr hIdsFinal hEFinal⟩
  · have hed : (load_from_dict (run ops) (to_dict (run ops))).edges_data
        = ((nodeIds (run ops)).map
            (fun u => (run ops).gedges.filter (fun e => e.source = u))).flatten := by
      rw [hfinal]
    rw [hed, run_edges_data_sync]
    exact flatten_filter_perm (nodeIds (run ops)) (run ops).gedges
      hwf.nodesNodup hwf.edgeSrc
  · have h1 := congrArg List.length hIdsFinal
    simpa [nodeIds, dkeys, get_node_count] using h1
  · rw [get_edge_count, get_edge_count, hEFinal]

/-- Witness for C4 on the example graph. -/
theorem C4_snapshot_restore_roundtrip_witness :
    (∀ op ∈ exampleOps, opValid op) ∧
    (load_from_dict (run exampleOps) (to_dict (run exampleOps))).nodes_data
      = (run exampleOps).nodes_data ∧
    (load_from_dict (run exampleOps) (to_dict (run exampleOps))).gedges
      = (run exampleOps).gedges ∧
    ((load_from_dict (run exampleOps) (to_dict (run exampleOps))).edges_data).Perm
      (run exampleOps).edges_data := by
  have hv : ∀ op ∈ exampleOps, opValid op := by
    intro op hop
    fin_cases hop <;> simp [opValid]
  have h := C4_snapshot_restore_roundtrip exampleOps hv
  exact ⟨hv, h.1, h.2.1, h.2.2.1⟩

/-- C8: the prerequisite strategy scores every emitted node by
`10 × (number of inbound "prerequisite" edges)` with a reason listing the
prerequisite source ids; every node with at least one inbound prerequisite
edge is emitted when the strategy list is not truncated (the sources are
always present nodes in a reachable store); and on the example graph
`Recommend(5)` includes Flask with the nonzero prerequisite score 10.
(Python `set` iteration order is unspecified; the model fixes insertion
order, and only order-insensitive facts are claimed.) -/
theorem C8_prerequisite_recommendations (ops : List Op) (limit : ℕ) :
    (∀ r ∈ recommend_by_prerequisites (run ops) limit,
        prereqSources (run ops) r.node ≠ [] ∧
        r.score = ((prereqSources (run ops) r.node).length : ℚ) * 10 ∧
        r.reason = "Prerequisites met: " ++
          String.intercalate ", " (prereqSources (run ops) r.node) ∧
        r.type = "prerequisite") ∧
    (get_node_count (run ops) ≤ limit →
      ∀ v ∈ nodeIds (run ops), prereqSources (run ops) v ≠ [] →
        ∃ r ∈ recommend_by_prerequisites (run ops) limit,
          r.node = v ∧ r.score = ((prereqSources (run ops) v).length : ℚ) * 10) ∧
    (⟨"Flask", "Prerequisites met: Python", 10, "prerequisite"⟩ : Recommendation)
      ∈ get_recommendations exampleGraph 5 := by
  have hwf := wf_run ops
  have hform : recommend_by_prerequisites (run ops) limit
      = (((nodeIds (run ops)).dedup).filterMap (fun v =>
          if prereqSources (run ops) v ≠ [] ∧
              ∀ p ∈ prereqSources (run ops) v, p ∈ (nodeIds (run ops)).dedup then
            some ⟨v, "Prerequisites met: " ++
                String.intercalate ", " (prereqSources (run ops) v),
              ((prereqSources (run ops) v).length : ℚ) * 10, "prerequisite"⟩
          else none)).take limit := rfl
  refine ⟨?_, ?_, by with_unfolding_all decide⟩
  · intro r hr
    rw [hform] at hr
    have hr1 := List.mem_of_mem_take hr
    rcases List.mem_filterMap.mp hr1 with ⟨v, hv, hf⟩
    by_cases hcond : prereqSources (run ops) v ≠ [] ∧
        ∀ p ∈ prereqSources (run ops) v, p ∈ (nodeIds (run ops)).dedup
    · rw [if_pos hcond, Option.some.injEq] at hf
      rw [← hf]
      exact ⟨hcond.1, rfl, rfl, rfl⟩
    · rw [if_neg hcond] at hf
      exact Option.noConfusion hf
  · intro hlim v hv hpre
    have hvd : v ∈ (nodeIds (run ops)).dedup := List.mem_dedup.mpr hv
    have hcond : prereqSources (run ops) v ≠ [] ∧
        ∀ p ∈ prereqSources (run ops) v, p ∈ (nodeIds (run ops)).dedup := by
      refine ⟨hpre, ?_⟩
      intro p hp
      apply List.mem_dedup.mpr
      rcases List.mem_map.mp hp with ⟨e, he, hps⟩
      have he1 := (List.mem_filter.mp (List.mem_filter.mp he).1).1
      rw [← hps]
      exact hwf.edgeSrc e he1
    refine ⟨⟨v, "Prerequisites met: " ++
        String.intercalate ", " (prereqSources (run ops) v),
        ((prereqSources (run ops) v).length : ℚ) * 10, "prerequisite"⟩, ?_, rfl, rfl⟩
    rw [hform]
    have hmem : (⟨v, "Prerequisites met: " ++
        String.intercalate ", " (prereqSources (run ops) v),
        ((prereqSources (run ops) v).length : ℚ) * 10,
        "prerequisite"⟩ : Recommendation) ∈
        ((nodeIds (run ops)).dedup).filterMap (fun v =>
          if prereqSources (run ops) v ≠ [] ∧
              ∀ p ∈ prereqSources (run ops) v, p ∈ (nodeIds (run ops)).dedup then
            some ⟨v, "Prerequisites met: " ++
                String.intercalate ", " (prereqSources (run ops) v),
              ((prereqSources (run ops) v).length : ℚ) * 10, "prerequisite"⟩
          else none) := by
      refine List.mem_filterMap.mpr ⟨v, hvd, ?_⟩
      rw [if_pos hcond]
    have hlen : (((nodeIds (run ops)).dedup).filterMap (fun v =>
        if prereqSources (run ops) v ≠ [] ∧
            ∀ p ∈ prereqSources (run ops) v, p ∈ (nodeIds (run ops)).dedup then
          some (⟨v, "Prerequisites met: " ++
              String.intercalate ", " (prereqSources (run ops) v),
            ((prereqSources (run ops) v).length : ℚ) * 10,
            "prerequisite"⟩ : Recommendation)
        else none)).length ≤ limit := by
      apply le_trans (List.length_filterMap_le _ _)
      apply le_trans (List.Sublist.length_le (List.dedup_sublist _))
      apply le_trans ?_ hlim
      show (nodeIds (run ops)).length ≤ get_node_count (run ops)
      simp [nodeIds, dkeys, get_node_count]
    rw [List.take_of_length_le hlen]
    exact hmem

/-- Witness for C8 at the example graph: Flask qualifies and is emitted with
score 10 by the prerequisite strategy, and by `Recommend(5)`. -/
theorem C8_prerequisite_recommendations_witness :
    (get_node_count (run exampleOps) ≤ 5 ∧
      "Flask" ∈ nodeIds (run exampleOps) ∧
      prereqSources (run exampleOps) "Flask" ≠ []) ∧
    (∃ r ∈ recommend_by_prerequisites (run exampleOps) 5,
      r.node = "Flask" ∧
        r.score = ((prereqSources (run exampleOps) "Flask").length : ℚ) * 10) ∧
    (⟨"Flask", "Prerequisites met: Python", 10, "prerequisite"⟩ : Recommendation)
      ∈ get_recommendations exampleGraph 5 := by
  have h1 : get_node_count (run exampleOps) ≤ 5 := by
    with_unfolding_all decide
  have h2 : "Flask" ∈ nodeIds (run exampleOps) := by
    with_unfolding_all decide
  have h3 : prereqSources (run exampleOps) "Flask" ≠ [] := by
    with_unfolding_all decide
  have h := C8_prerequisite_recommendations exampleOps 5
  exact ⟨⟨h1, h2, h3⟩, h.2.1 h1 "Flask" h2 h3, h.2.2⟩
